import Mathlib

/-!
Shallow embedding of the MyDb skip list (`db/skiplist.h`) and bump-pointer
arena (`util/arena.h`), together with machine-checked statements about them.

Modelling conventions:
* Node pointers become `Option Nat`: `none` is `nullptr`, `some i` is the
  node stored at arena slot `i`.
* The arena of nodes is a map `Nat → Option (Node K)` together with the
  number of allocated nodes; allocation appends at the next free slot, so
  a node's address never changes.
* The comparator capability (a strict total order supplied by the caller)
  is modelled by a `LinearOrder` on the key type, with `cmpOf` playing the
  role of `compare_` (negative / zero / positive result).
* The single-writer dynamics are sequential: atomic loads and stores with
  their memory orders become plain reads and writes, performed in exactly
  the order the source performs them.
* The unbounded `while (true)` searches are written with an explicit fuel
  argument; `none` means the fuel ran out, which is proved impossible on
  well-formed states.
-/

namespace leveldb

/-- Result of the comparator `compare_(a, b)`: negative, zero or positive. -/
def cmpOf {K : Type} [LinearOrder K] (a b : K) : Int :=
  if a < b then -1 else if b < a then 1 else 0

/-- The source's `Equal(a, b)`, namely `compare_(a, b) == 0`. -/
def Equal {K : Type} [LinearOrder K] (a b : K) : Bool :=
  cmpOf a b == 0

/-- Maximum height of the skip list (`enum { kMaxHeight = 12 }`). -/
def kMaxHeight : Nat := 12

/-- Branching factor of the random height draw (`kBranching = 4`). -/
def kBranching : Nat := 4

/-- A skip-list node: an immutable key plus `height` forward pointers.
`next` is the forward-pointer array `next_`; slots at or above `height`
are never written and stay `none`. -/
structure Node (K : Type) where
  key : K
  height : Nat
  next : Nat → Option Nat

/-- The skip-list state: the sentinel head's forward pointers, the arena
of nodes, the number of allocated nodes, and the `max_height_` hint. -/
structure SkipList (K : Type) where
  headNext : Nat → Option Nat
  nodeAt : Nat → Option (Node K)
  size : Nat
  maxHeight : Nat

/-- A reference to a node during traversal: the sentinel head or a node. -/
inductive NRef where
  | head : NRef
  | node : Nat → NRef
deriving DecidableEq

/-- Dereference a forward pointer: `r->Next(l)` (or `NoBarrier_Next`). -/
def nextOf {K : Type} (sl : SkipList K) (r : NRef) (l : Nat) : Option Nat :=
  match r with
  | NRef.head => sl.headNext l
  | NRef.node i =>
    match sl.nodeAt i with
    | some nd => nd.next l
    | none => none

/-- Key stored at arena slot `i`, when that slot holds a node. -/
def keyOf {K : Type} (sl : SkipList K) (i : Nat) : Option K :=
  (sl.nodeAt i).map Node.key

/-- A freshly constructed list: head's `kMaxHeight` forward pointers are
all null and `max_height_` is 1. -/
def mkSkipList (K : Type) : SkipList K :=
  { headNext := fun _ => none, nodeAt := fun _ => none, size := 0, maxHeight := 1 }

/-- The source's `KeyIsAfterNode(key, n)`:
`(n != nullptr) && (compare_(n->key, key) < 0)`. A dangling reference has
no key to compare and yields `false`; it never occurs on well-formed
states. -/
def KeyIsAfterNode {K : Type} [LinearOrder K] (sl : SkipList K) (key : K) (n : Option Nat) : Bool :=
  match n with
  | none => false
  | some i =>
    match keyOf sl i with
    | none => false
    | some nk => decide (cmpOf nk key < 0)

/-- `KeyIsAfterNode` as a boolean predicate on node ids. -/
def kianB {K : Type} [LinearOrder K] (sl : SkipList K) (key : K) (i : Nat) : Bool :=
  KeyIsAfterNode sl key (some i)

/-- One pass of `FindGreaterOrEqual`'s `while (true)` loop, with fuel.
The `prev` recording is unconditional here; the source performs it only
when a `prev` array was supplied, which changes neither the traversal nor
the returned node, so `FindGreaterOrEqual(key, nullptr)` is this function
with the recorded component ignored. -/
def fgeLoop {K : Type} [LinearOrder K] (sl : SkipList K) (key : K) :
    Nat → NRef → Nat → (Nat → NRef) → Option (Option Nat × (Nat → NRef))
  | 0, _, _, _ => none
  | fuel + 1, x, level, prev =>
    let nxt := nextOf sl x level
    if KeyIsAfterNode sl key nxt then
      fgeLoop sl key fuel (NRef.node (nxt.getD 0)) level prev
    else
      let prev' := fun j => if j = level then x else prev j
      if level = 0 then some (nxt, prev')
      else fgeLoop sl key fuel x (level - 1) prev'

/-- Fuel that always suffices on well-formed states: one step per node and
level plus slack. -/
def fgeFuel {K : Type} (sl : SkipList K) : Nat := kMaxHeight * (sl.size + 1) + 1

/-- The source's `FindGreaterOrEqual(key, prev)`: start at the head on the
height hint's top level and search downward. Returns the reached node and
the recorded predecessor array. -/
def FindGreaterOrEqual {K : Type} [LinearOrder K] (sl : SkipList K) (key : K) :
    Option (Option Nat × (Nat → NRef)) :=
  fgeLoop sl key (fgeFuel sl) NRef.head (sl.maxHeight - 1) (fun _ => NRef.head)

/-- The source's `Contains(key)`. The found branch returns `true`. The
other branch is `return flase;` — `flase` is an undeclared identifier, not
the boolean `false` — modelled as `none`: no boolean is produced there.
The outer `Option` is the search fuel (never exhausted on well-formed
states). -/
def Contains {K : Type} [LinearOrder K] (sl : SkipList K) (key : K) : Option (Option Bool) :=
  match FindGreaterOrEqual sl key with
  | none => none
  | some (x, _) =>
    some
      (match x with
        | some i =>
          match keyOf sl i with
          | some xk => if Equal key xk then some true else none
          | none => none
        | none => none)

/-- The `assert(x == nullptr || !Equal(key, x->key))` at the top of
`Insert`, evaluated on the result of the search. -/
def insertAssertOk {K : Type} [LinearOrder K] (sl : SkipList K) (key : K) : Option Bool :=
  match FindGreaterOrEqual sl key with
  | none => none
  | some (x, _) =>
    some
      (match x with
        | none => true
        | some i =>
          match keyOf sl i with
          | some xk => !Equal key xk
          | none => true)

/-- The `while (height < kMaxHeight && rnd_.OneIn(kBranching))` loop of
`RandomHeight`. The outcomes of the biased draws with branching factor
`kBranching` are abstracted as the boolean stream `draws` (`Random::OneIn`
lives outside this repository's sources); `t` counts draws consumed. -/
def RandomHeightFrom (draws : Nat → Bool) (t height : Nat) : Nat :=
  if h : height < kMaxHeight ∧ draws t = true then
    RandomHeightFrom draws (t + 1) (height + 1)
  else height
termination_by kMaxHeight - height
decreasing_by
  simp only [kMaxHeight] at *
  omega

/-- The source's `RandomHeight()`: start at height 1 and increment while
the height is below the cap and the biased draw succeeds. -/
def RandomHeight (draws : Nat → Bool) : Nat :=
  RandomHeightFrom draws 0 1

/-- Write slot `m` of node `a`'s forward-pointer array (`SetNext` /
`NoBarrier_SetNext`; in this single-writer sequential model the two
memory orders perform the same state change). -/
def setNodeNextSlot {K : Type} (st : SkipList K) (a m : Nat) (v : Option Nat) : SkipList K :=
  { st with
    nodeAt := fun j =>
      if j = a then
        (st.nodeAt a).map fun nd =>
          { nd with next := fun l => if l = m then v else nd.next l }
      else st.nodeAt j }

/-- Write slot `m` of the forward pointers of `r` (head or node). -/
def setRefNext {K : Type} (st : SkipList K) (r : NRef) (m : Nat) (v : Option Nat) : SkipList K :=
  match r with
  | NRef.head => { st with headNext := fun l => if l = m then v else st.headNext l }
  | NRef.node a => setNodeNextSlot st a m v

/-- The splice loop of `Insert`: for each level `i` below `height`, first
copy the predecessor's successor into the new node's own slot
(`x->NoBarrier_SetNext(i, prev[i]->NoBarrier_Next(i))`, the relaxed
store), then publish the new node into the predecessor's slot
(`prev[i]->SetNext(i, x)`, the release store). The first numeric argument
counts the remaining iterations (it starts at `height` with `i = 0`), so
the recursion is structural. -/
def spliceLoop {K : Type} (prev : Nat → NRef) (newId height : Nat) :
    Nat → Nat → SkipList K → SkipList K
  | 0, _, st => st
  | fuel + 1, i, st =>
    if i < height then
      let succ := nextOf st (prev i) i
      let st1 := setNodeNextSlot st newId i succ
      let st2 := setRefNext st1 (prev i) i (some newId)
      spliceLoop prev newId height fuel (i + 1) st2
    else st

/-- The source's `Insert(key)`, with the outcome of `RandomHeight()`
passed in as `height`. After the search, predecessor slots for levels
newly brought into use are set to the head and the height hint is raised;
then the node is allocated from the arena (`NewNode`) and spliced in from
level 0 upward. The duplicate-key `assert` is modelled separately by
`insertAssertOk`; as in a release build, `Insert` itself proceeds
unconditionally. `none` only signals fuel exhaustion of the inner search,
which cannot happen on well-formed states. -/
def Insert {K : Type} [LinearOrder K] (sl : SkipList K) (key : K) (height : Nat) :
    Option (SkipList K) :=
  match FindGreaterOrEqual sl key with
  | none => none
  | some (_, prev0) =>
    let mh := sl.maxHeight
    let prev : Nat → NRef := fun i => if mh ≤ i ∧ i < height then NRef.head else prev0 i
    let sl1 : SkipList K := { sl with maxHeight := if mh < height then height else mh }
    let newId := sl1.size
    let sl2 : SkipList K :=
      { sl1 with
        nodeAt := fun j => if j = newId then some ⟨key, height, fun _ => none⟩ else sl1.nodeAt j,
        size := sl1.size + 1 }
    some (spliceLoop prev newId height height 0 sl2)

/-- Run a sequence of inserts (each key paired with its random height). -/
def insertAll {K : Type} [LinearOrder K] (sl : SkipList K) :
    List (K × Nat) → Option (SkipList K)
  | [] => some sl
  | (k, h) :: rest =>
    match Insert sl k h with
    | none => none
    | some sl' => insertAll sl' rest

/-- The predecessor array used by `Insert`'s splice: the array recorded by
the search, with levels `[maxHeight, height)` padded with the head. -/
def insPrev {K : Type} (sl : SkipList K) (height : Nat) (pv : Nat → NRef) : Nat → NRef :=
  fun i => if sl.maxHeight ≤ i ∧ i < height then NRef.head else pv i

/-- The state right after `Insert` has raised the height hint and
allocated the new node from the arena (`NewNode`), before splicing. -/
def preSplice {K : Type} (sl : SkipList K) (key : K) (height : Nat) : SkipList K :=
  { headNext := sl.headNext,
    nodeAt := fun j => if j = sl.size then some ⟨key, height, fun _ => none⟩ else sl.nodeAt j,
    size := sl.size + 1,
    maxHeight := if sl.maxHeight < height then height else sl.maxHeight }

/-- The per-level chains after inserting `key` with height `height` at
fresh arena slot `newId`: each level below `height` gains the new node
between the nodes with keys below `key` and the rest. -/
def spliceChains {K : Type} [LinearOrder K] (sl : SkipList K) (key : K) (height newId : Nat)
    (c : Nat → List Nat) : Nat → List Nat :=
  fun l =>
    if l < height then
      (c l).takeWhile (kianB sl key) ++ newId :: (c l).dropWhile (kianB sl key)
    else c l

/-- The iterator state: `node_` only; the `list_` reference is passed to
each operation explicitly. -/
structure Iterator (K : Type) where
  node? : Option Nat
deriving DecidableEq

/-- The constructor `Iterator(list)`: `list_ = list; node_ = nullptr`. -/
def Iterator.mkNew {K : Type} (_sl : SkipList K) : Iterator K := ⟨none⟩

/-- `Valid()`: true iff the iterator is positioned on a node. -/
def Iterator.Valid {K : Type} (it : Iterator K) : Bool := it.node?.isSome

/-- `SeekToFirst()`: `node_ = list_->head_->Next(0)`. -/
def Iterator.SeekToFirst {K : Type} (sl : SkipList K) (_it : Iterator K) : Iterator K :=
  ⟨nextOf sl NRef.head 0⟩

/-- `Next()` exactly as written: `assert(Valid()); return node_->Next(0);`.
The level-0 successor is computed and handed to a stray `return` in a
`void` member function (ill-formed in itself), and `node_` is never
assigned, so the iterator does not move. The first component is the value
of the stray `return` expression, the second the unchanged iterator. -/
def Iterator.Next {K : Type} (sl : SkipList K) (it : Iterator K) : Option Nat × Iterator K :=
  (match it.node? with
    | some i => nextOf sl (NRef.node i) 0
    | none => none,
   it)

/-- Sample list holding the single key 5 (one height-1 insert into a
fresh list over `Int`). -/
def sampleList : SkipList Int :=
  (Insert (mkSkipList Int) 5 1).getD (mkSkipList Int)

/-- The sample list after additionally inserting the key 9 at height 1. -/
def sampleList2 : SkipList Int :=
  (Insert sampleList 9 1).getD sampleList

/-- The last node of `cs` as a reference, or `r` when `cs` is empty. -/
def lastRef (r : NRef) (cs : List Nat) : NRef :=
  cs.foldl (fun _ j => NRef.node j) r

/-- Where the search for `key` descends at a level whose chain is `cs`:
the last node of the chain whose key is below `key`, or the head. -/
def descendRef {K : Type} [LinearOrder K] (sl : SkipList K) (key : K) (cs : List Nat) : NRef :=
  lastRef NRef.head (cs.takeWhile (kianB sl key))

/-- Keys along a list of node ids, in order. -/
def chainKeys {K : Type} (sl : SkipList K) (cs : List Nat) : List K :=
  cs.filterMap (keyOf sl)

/-- The finite chain of node ids reached from `r` by following level-`l`
forward pointers until null. -/
inductive IsChain {K : Type} (sl : SkipList K) (l : Nat) : NRef → List Nat → Prop where
  | nil {r : NRef} : nextOf sl r l = none → IsChain sl l r []
  | cons {r : NRef} {i : Nat} {cs : List Nat} :
      nextOf sl r l = some i → IsChain sl l (NRef.node i) cs → IsChain sl l r (i :: cs)

/-- Strict key order between the nodes at two arena slots. -/
def keyLt {K : Type} [LinearOrder K] (sl : SkipList K) (i j : Nat) : Prop :=
  ∃ a b, keyOf sl i = some a ∧ keyOf sl j = some b ∧ a < b

/-- Well-formedness of a skip-list state, witnessed by its per-level
chains `c`: the arena holds exactly slots below `size`; the height hint is
in `[1, kMaxHeight]`; at every level the head reaches a finite chain of
in-range nodes; the level-0 chain is strictly increasing by key; each
level's chain is a sublist of the one below; chains at or above the height
hint are empty. -/
structure GoodChains {K : Type} [LinearOrder K] (sl : SkipList K) (c : Nat → List Nat) : Prop where
  store : ∀ i, (sl.nodeAt i).isSome ↔ i < sl.size
  mhPos : 1 ≤ sl.maxHeight
  mhLe : sl.maxHeight ≤ kMaxHeight
  chain : ∀ l, l < kMaxHeight → IsChain sl l NRef.head (c l)
  valid : ∀ l, l < kMaxHeight → ∀ i ∈ c l, i < sl.size
  sorted : (c 0).Pairwise (keyLt sl)
  sub : ∀ l, l + 1 < kMaxHeight → (c (l + 1)).Sublist (c l)
  above : ∀ l, sl.maxHeight ≤ l → l < kMaxHeight → c l = []

/-- The bump-pointer arena. Machine addresses are modelled as naturals;
`nextFresh` is the lowest address not yet handed to the arena, standing in
for the system allocator: each new block is placed at `nextFresh`, which
models that real blocks are pairwise disjoint. -/
structure Arena where
  allocPtr : Nat
  allocRemaining : Nat
  memoryUsage : Nat
  nextFresh : Nat
deriving DecidableEq

/-- A fresh arena: null cursor, no bytes remaining in the active block. -/
def arenaInit : Arena := ⟨0, 0, 0, 0⟩

/-- Standard block size of the arena (4096 bytes). -/
def kBlockSize : Nat := 4096

/-- Pointer-size alignment required by `AllocateAligned`. -/
def kArenaAlign : Nat := 8

/-- Modelled from the spec: `Arena::AllocateNewBlock(block_bytes)` is
declared in the header but implemented outside the given sources. It
obtains one fresh block of `block_bytes` bytes from the system allocator,
records it for release at destruction, and bumps the usage counter. -/
def AllocateNewBlock (a : Arena) (blockBytes : Nat) : Nat × Arena :=
  (a.nextFresh,
   { a with
      nextFresh := a.nextFresh + blockBytes,
      memoryUsage := a.memoryUsage + blockBytes })

/-- Modelled from the spec: `Arena::AllocateFallback(bytes)` is declared
in the header but implemented outside the given sources. Requests larger
than a quarter of the standard block size get a dedicated block of exactly
the requested size (the active block is kept); otherwise a new standard
block replaces the active one and the request is served from its start. -/
def AllocateFallback (a : Arena) (bytes : Nat) : Nat × Arena :=
  if bytes > kBlockSize / 4 then
    AllocateNewBlock a bytes
  else
    let r := AllocateNewBlock a kBlockSize
    (r.1, { r.2 with allocPtr := r.1 + bytes, allocRemaining := kBlockSize - bytes })

/-- The source's inline `Arena::Allocate(bytes)`: serve from the active
block when it has enough room and advance the cursor, otherwise delegate
to the fallback path. -/
def Allocate (a : Arena) (bytes : Nat) : Nat × Arena :=
  if bytes ≤ a.allocRemaining then
    (a.allocPtr,
     { a with
        allocPtr := a.allocPtr + bytes,
        allocRemaining := a.allocRemaining - bytes })
  else AllocateFallback a bytes

/-- Modelled from the spec: `Arena::AllocateAligned(bytes)` is declared in
the header but implemented outside the given sources. Round the cursor up
to the alignment boundary, serve from the active block if the padded
request fits, otherwise fall back (fresh blocks are aligned by the system
allocator). -/
def AllocateAligned (a : Arena) (bytes : Nat) : Nat × Arena :=
  let slop := a.allocPtr % kArenaAlign
  let pad := if slop = 0 then 0 else kArenaAlign - slop
  if bytes + pad ≤ a.allocRemaining then
    (a.allocPtr + pad,
     { a with
        allocPtr := a.allocPtr + pad + bytes,
        allocRemaining := a.allocRemaining - (bytes + pad) })
  else AllocateFallback a bytes

/-- One allocation request against the arena. -/
inductive ArenaReq where
  | plain : Nat → ArenaReq
  | aligned : Nat → ArenaReq

/-- Run a sequence of allocation requests, collecting the returned byte
ranges as (start, length) pairs. -/
def runArena (a : Arena) : List ArenaReq → List (Nat × Nat) × Arena
  | [] => ([], a)
  | ArenaReq.plain b :: qs =>
    let r := Allocate a b
    let rest := runArena r.2 qs
    ((r.1, b) :: rest.1, rest.2)
  | ArenaReq.aligned b :: qs =>
    let r := AllocateAligned a b
    let rest := runArena r.2 qs
    ((r.1, b) :: rest.1, rest.2)

/-- Two byte ranges (start, length) share an address. -/
def Overlap (r1 r2 : Nat × Nat) : Prop :=
  ∃ x, (r1.1 ≤ x ∧ x < r1.1 + r1.2) ∧ (r2.1 ≤ x ∧ x < r2.1 + r2.2)

/-- Invariant threading the non-overlap argument: the free region of the
active block lies below `nextFresh`, and every range handed out so far
lies below `nextFresh` and clear of the free region. -/
def ArenaSafe (a : Arena) (past : List (Nat × Nat)) : Prop :=
  a.allocPtr + a.allocRemaining ≤ a.nextFresh ∧
  ∀ r ∈ past, r.1 + r.2 ≤ a.nextFresh ∧
    (r.1 + r.2 ≤ a.allocPtr ∨ a.allocPtr + a.allocRemaining ≤ r.1)

theorem cmpOf_lt_iff {K : Type} [LinearOrder K] (a b : K) : cmpOf a b < 0 ↔ a < b := by
  unfold cmpOf
  by_cases h : a < b
  · simp [h]
  · by_cases h2 : b < a <;> simp [h, h2]

theorem cmpOf_eq_zero_iff {K : Type} [LinearOrder K] (a b : K) : cmpOf a b = 0 ↔ a = b := by
  unfold cmpOf
  by_cases h : a < b
  · simp only [if_pos h]
    constructor
    · intro e; cases e
    · intro e; exact absurd (e ▸ h) (lt_irrefl _)
  · by_cases h2 : b < a
    · simp only [if_neg h, if_pos h2]
      constructor
      · intro e; cases e
      · intro e; exact absurd (e ▸ h2) (lt_irrefl _)
    · simp only [if_neg h, if_neg h2]
      constructor
      · intro _; exact le_antisymm (not_lt.mp h2) (not_lt.mp h)
      · intro _; trivial

theorem Equal_iff {K : Type} [LinearOrder K] (a b : K) : Equal a b = true ↔ a = b := by
  simp [Equal, cmpOf_eq_zero_iff]

theorem kianB_iff {K : Type} [LinearOrder K] (sl : SkipList K) (key : K) (i : Nat) :
    kianB sl key i = true ↔ ∃ nk, keyOf sl i = some nk ∧ nk < key := by
  unfold kianB KeyIsAfterNode
  cases h : keyOf sl i <;> simp [h, cmpOf_lt_iff]

theorem RandomHeightFrom_bounds (draws : Nat → Bool) :
    ∀ fuel t height, kMaxHeight - height ≤ fuel → height ≤ kMaxHeight →
      height ≤ RandomHeightFrom draws t height ∧ RandomHeightFrom draws t height ≤ kMaxHeight := by
  intro fuel
  induction fuel with
  | zero =>
    intro t height hf hh
    have he : ¬(height < kMaxHeight ∧ draws t = true) := fun hc => by omega
    rw [RandomHeightFrom]
    simp only [he, dite_false, dif_neg]
    exact ⟨le_refl _, hh⟩
  | succ f ih =>
    intro t height hf hh
    rw [RandomHeightFrom]
    by_cases h : height < kMaxHeight ∧ draws t = true
    · simp only [h, dif_pos]
      have hr := ih (t + 1) (height + 1) (by omega) (by omega)
      exact ⟨Nat.le_trans (Nat.le_succ _) hr.1, hr.2⟩
    · simp only [h, dif_neg]
      exact ⟨le_refl _, hh⟩

/-- C7: `RandomHeight()` always returns a height in `[1, 12]`: it starts
at height 1 and increments while the height is below the maximum
`kMaxHeight = 12` and the biased draw with branching factor 4 succeeds;
this holds for every possible stream of draw outcomes. -/
theorem RandomHeight_range (draws : Nat → Bool) :
    1 ≤ RandomHeight draws ∧ RandomHeight draws ≤ 12 :=
  RandomHeightFrom_bounds draws (kMaxHeight - 1) 0 1 (by norm_num [kMaxHeight])
    (by norm_num [kMaxHeight])

/-- C10: a freshly constructed iterator is not positioned on any node —
`Valid()` returns false straight after construction, before any seek. -/
theorem Iterator_new_invalid {K : Type} (sl : SkipList K) :
    Iterator.Valid (Iterator.mkNew sl) = false := rfl

/-- C1 (code bug): `Contains` diverges from the claim on the not-found
path. On the found path it returns `true` (second conjunct), but whenever
no node with an equal key is found — searching an empty list, or a list
whose first key at or above the target is unequal — it executes
`return flase;`, where `flase` is an undeclared identifier rather than
the boolean `false`; modelled as `some none`: the call produces no
boolean at all, contrary to the claim that it returns `false`. -/
theorem Contains_flase_defect :
    Contains (mkSkipList Int) 0 = some none ∧
    Contains sampleList 5 = some (some true) ∧
    Contains sampleList2 7 = some none := by decide

/-- C6 (code bug): with keys 5 and 9 inserted, `SeekToFirst()` lands on
the node holding 5 (last conjunct); the body of `Next()` computes the
level-0 successor — the node holding 9 (first conjunct) — but hands it to
a stray `return` in the `void` function instead of assigning `node_`, so
the iterator does not move (second conjunct), contrary to the claim that
`Next()` advances to the level-0 successor. -/
theorem IterNext_does_not_advance :
    (Iterator.Next sampleList2 (Iterator.SeekToFirst sampleList2 ⟨none⟩)).1 = some 1 ∧
    (Iterator.Next sampleList2 (Iterator.SeekToFirst sampleList2 ⟨none⟩)).2 =
      Iterator.SeekToFirst sampleList2 ⟨none⟩ ∧
    keyOf sampleList2 0 = some 5 ∧ keyOf sampleList2 1 = some 9 ∧
    (Iterator.SeekToFirst sampleList2 ⟨none⟩).node? = some 0 := by decide

theorem IsChain.unique {K : Type} {sl : SkipList K} {l : Nat} :
    ∀ {r : NRef} {cs cs' : List Nat}, IsChain sl l r cs → IsChain sl l r cs' → cs = cs' := by
  intro r cs
  induction cs generalizing r with
  | nil =>
    intro cs' h h'
    cases h with
    | nil hn =>
      cases h' with
      | nil _ => rfl
      | cons hs _ => rw [hn] at hs; cases hs
  | cons a cs ih =>
    intro cs' h h'
    cases h with
    | cons hs hc =>
      cases h' with
      | nil hn => rw [hn] at hs; cases hs
      | cons hs' hc' =>
        have e := hs.symm.trans hs'
        injection e with e
        subst e
        rw [ih hc hc']

theorem IsChain.congrNext {K : Type} {st st' : SkipList K} {l : Nat}
    (hext : ∀ r, nextOf st r l = nextOf st' r l) :
    ∀ {r : NRef} {cs : List Nat}, IsChain st l r cs → IsChain st' l r cs := by
  intro r cs h
  induction h with
  | nil hn => exact IsChain.nil ((hext _).symm.trans hn)
  | cons hs _ ih => exact IsChain.cons ((hext _).symm.trans hs) ih

theorem lastRef_nil (r : NRef) : lastRef r [] = r := rfl

theorem lastRef_cons (r : NRef) (a : Nat) (cs : List Nat) :
    lastRef r (a :: cs) = lastRef (NRef.node a) cs := rfl

theorem lastRef_concat (r : NRef) (cs : List Nat) (j : Nat) :
    lastRef r (cs ++ [j]) = NRef.node j := by
  unfold lastRef
  rw [List.foldl_append]
  rfl

theorem lastRef_cases (r : NRef) (cs : List Nat) :
    (cs = [] ∧ lastRef r cs = r) ∨ ∃ j ∈ cs, lastRef r cs = NRef.node j := by
  induction cs generalizing r with
  | nil => exact Or.inl ⟨rfl, rfl⟩
  | cons a cs ih =>
    right
    rcases ih (NRef.node a) with ⟨he, hr⟩ | ⟨j, hj, hr⟩
    · subst he
      exact ⟨a, by simp, hr⟩
    · exact ⟨j, by simp [hj], hr⟩

theorem IsChain.split {K : Type} {sl : SkipList K} {l : Nat} :
    ∀ {us : List Nat} {r : NRef} {vs : List Nat},
      IsChain sl l r (us ++ vs) → IsChain sl l (lastRef r us) vs := by
  intro us
  induction us with
  | nil => intro r vs h; exact h
  | cons a us ih =>
    intro r vs h
    rw [lastRef_cons]
    cases h with
    | cons _ hc => exact ih hc

theorem IsChain.head?_eq {K : Type} {sl : SkipList K} {l : Nat} {r : NRef} {cs : List Nat}
    (h : IsChain sl l r cs) : nextOf sl r l = cs.head? := by
  cases h <;> simp [*]

theorem takeWhile_append_of_all {α : Type} (p : α → Bool) {l1 : List α} (l2 : List α)
    (h : ∀ a ∈ l1, p a = true) :
    (l1 ++ l2).takeWhile p = l1 ++ l2.takeWhile p := by
  induction l1 with
  | nil => rfl
  | cons a l1 ih =>
    have ha := h a (by simp)
    simp only [List.cons_append, List.takeWhile_cons, ha, if_true]
    rw [ih (fun b hb => h b (by simp [hb]))]

theorem dropWhile_append_of_all {α : Type} (p : α → Bool) {l1 : List α} (l2 : List α)
    (h : ∀ a ∈ l1, p a = true) :
    (l1 ++ l2).dropWhile p = l2.dropWhile p := by
  induction l1 with
  | nil => rfl
  | cons a l1 ih =>
    have ha := h a (by simp)
    simp only [List.cons_append, List.dropWhile_cons, ha, if_true]
    exact ih (fun b hb => h b (by simp [hb]))

theorem takeWhile_all_of_all {α : Type} (p : α → Bool) {l1 : List α}
    (h : ∀ a ∈ l1, p a = true) : l1.takeWhile p = l1 := by
  have := takeWhile_append_of_all p [] h
  simpa using this

theorem sorted_take_drop_filter {α : Type} {R : α → α → Prop} {p : α → Bool}
    (hmono : ∀ i j, R i j → p j = true → p i = true) :
    ∀ {cs : List α}, cs.Pairwise R →
      cs.takeWhile p = cs.filter p ∧ cs.dropWhile p = cs.filter (fun i => !p i) := by
  intro cs
  induction cs with
  | nil => intro _; exact ⟨rfl, rfl⟩
  | cons a cs ih =>
    intro hp
    rw [List.pairwise_cons] at hp
    obtain ⟨ha, hcs⟩ := hp
    obtain ⟨iht, ihd⟩ := ih hcs
    cases hpa : p a with
    | true =>
      constructor
      · simp [List.takeWhile_cons, List.filter_cons, hpa, iht]
      · simp [List.dropWhile_cons, List.filter_cons, hpa, ihd]
    | false =>
      have hall : ∀ j ∈ cs, p j = false := by
        intro j hj
        cases hpj : p j with
        | false => rfl
        | true =>
          have hf := hmono a j (ha j hj) hpj
          rw [hpa] at hf
          cases hf
      constructor
      · have h1 : List.filter p (a :: cs) = [] := by
          rw [List.filter_eq_nil_iff]
          intro j hj
          rcases List.mem_cons.mp hj with e | hj'
          · subst e; simp [hpa]
          · simp [hall j hj']
        rw [h1]
        simp [List.takeWhile_cons, hpa]
      · have h2 : List.filter (fun i => !p i) (a :: cs) = a :: cs := by
          rw [List.filter_eq_self]
          intro j hj
          rcases List.mem_cons.mp hj with e | hj'
          · subst e; simp [hpa]
          · simp [hall j hj']
        rw [h2]
        simp [List.dropWhile_cons, hpa]

theorem GoodChains.keyOf_mem {K : Type} [LinearOrder K] {sl : SkipList K} {c : Nat → List Nat}
    (gc : GoodChains sl c) {l : Nat} (hl : l < kMaxHeight) {i : Nat} (hi : i ∈ c l) :
    ∃ k, keyOf sl i = some k := by
  have hlt := gc.valid l hl i hi
  have hs := (gc.store i).mpr hlt
  cases hn : sl.nodeAt i with
  | none => rw [hn] at hs; cases hs
  | some nd => exact ⟨nd.key, by simp [keyOf, hn]⟩

theorem GoodChains.sub_tower {K : Type} [LinearOrder K] {sl : SkipList K} {c : Nat → List Nat}
    (gc : GoodChains sl c) : ∀ l, l < kMaxHeight → (c l).Sublist (c 0) := by
  intro l
  induction l with
  | zero => intro _; exact List.Sublist.refl _
  | succ m ih => intro hl; exact (gc.sub m hl).trans (ih (by omega))

theorem GoodChains.sorted_level {K : Type} [LinearOrder K] {sl : SkipList K} {c : Nat → List Nat}
    (gc : GoodChains sl c) (l : Nat) (hl : l < kMaxHeight) : (c l).Pairwise (keyLt sl) :=
  gc.sorted.sublist (gc.sub_tower l hl)

theorem keyLt_ne {K : Type} [LinearOrder K] {sl : SkipList K} {i j : Nat}
    (h : keyLt sl i j) : i ≠ j := by
  obtain ⟨a, b, ha, hb, hab⟩ := h
  intro e
  subst e
  have := ha.symm.trans hb
  injection this with e
  subst e
  exact lt_irrefl a hab

theorem GoodChains.nodup_level {K : Type} [LinearOrder K] {sl : SkipList K} {c : Nat → List Nat}
    (gc : GoodChains sl c) (l : Nat) (hl : l < kMaxHeight) : (c l).Nodup :=
  (gc.sorted_level l hl).imp keyLt_ne

theorem length_le_of_nodup_lt {cs : List Nat} {n : Nat} (hnd : cs.Nodup)
    (hlt : ∀ i ∈ cs, i < n) : cs.length ≤ n := by
  have hsub : cs.toFinset ⊆ Finset.range n := by
    intro x hx
    rw [List.mem_toFinset] at hx
    exact Finset.mem_range.mpr (hlt x hx)
  have hcard := Finset.card_le_card hsub
  rwa [List.toFinset_card_of_nodup hnd, Finset.card_range] at hcard

theorem GoodChains.len_le {K : Type} [LinearOrder K] {sl : SkipList K} {c : Nat → List Nat}
    (gc : GoodChains sl c) (l : Nat) (hl : l < kMaxHeight) : (c l).length ≤ sl.size :=
  length_le_of_nodup_lt (gc.nodup_level l hl) (gc.valid l hl)

theorem kianB_antitone {K : Type} [LinearOrder K] (sl : SkipList K) (key : K) :
    ∀ i j, keyLt sl i j → kianB sl key j = true → kianB sl key i = true := by
  intro i j hij hj
  rw [kianB_iff] at hj ⊢
  obtain ⟨a, b, ha, hb, hab⟩ := hij
  obtain ⟨nk, hnk, hlt⟩ := hj
  have e := hb.symm.trans hnk
  injection e with e
  subst e
  exact ⟨a, ha, lt_trans hab hlt⟩

theorem mk_goodChains (K : Type) [LinearOrder K] :
    GoodChains (mkSkipList K) (fun _ => []) := by
  refine ⟨?_, ?_, ?_, ?_, ?_, ?_, ?_, ?_⟩
  · intro i; simp [mkSkipList]
  · exact le_refl 1
  · norm_num [mkSkipList, kMaxHeight]
  · intro l _; exact IsChain.nil rfl
  · intro l _ i hi; cases hi
  · exact List.Pairwise.nil
  · intro l _; exact List.Sublist.refl []
  · intro l _ _; rfl

theorem fgeLoop_advance {K : Type} [LinearOrder K] (sl : SkipList K) (key : K) (f : Nat)
    (x : NRef) (level : Nat) (prev : Nat → NRef) {a : Nat}
    (hnext : nextOf sl x level = some a) (hpa : kianB sl key a = true) :
    fgeLoop sl key (f + 1) x level prev = fgeLoop sl key f (NRef.node a) level prev := by
  have hh : KeyIsAfterNode sl key (some a) = true := hpa
  simp only [fgeLoop, hnext, hh, if_true, Option.getD_some]

theorem fgeLoop_stop0 {K : Type} [LinearOrder K] (sl : SkipList K) (key : K) (f : Nat)
    (x : NRef) (prev : Nat → NRef) {o : Option Nat} (hnext : nextOf sl x 0 = o)
    (hpo : KeyIsAfterNode sl key o = false) :
    fgeLoop sl key (f + 1) x 0 prev = some (o, fun j => if j = 0 then x else prev j) := by
  subst hnext
  simp only [fgeLoop, hpo]
  simp

theorem fgeLoop_descend {K : Type} [LinearOrder K] (sl : SkipList K) (key : K) (f : Nat)
    (x : NRef) (level : Nat) (prev : Nat → NRef) {o : Option Nat}
    (hnext : nextOf sl x (level + 1) = o) (hpo : KeyIsAfterNode sl key o = false) :
    fgeLoop sl key (f + 1) x (level + 1) prev =
      fgeLoop sl key f x level (fun j => if j = level + 1 then x else prev j) := by
  subst hnext
  simp only [fgeLoop, hpo]
  simp

theorem descend_setup {K : Type} [LinearOrder K] {sl : SkipList K} {c : Nat → List Nat}
    (gc : GoodChains sl c) (key : K) {level : Nat} (hlvl : level + 1 < kMaxHeight)
    {E : List Nat} {x : NRef}
    (hE : ∀ e ∈ E, kianB sl key e = true) (hx : x = lastRef NRef.head E)
    (hmem : ∀ j ∈ E, j ∈ c (level + 1)) :
    ∃ E2 ds2, c level = E2 ++ ds2 ∧ (∀ e ∈ E2, kianB sl key e = true) ∧
      IsChain sl level x ds2 ∧ x = lastRef NRef.head E2 := by
  rcases lastRef_cases NRef.head E with ⟨hE0, hr⟩ | ⟨j, hjE, hr⟩
  · subst hE0
    refine ⟨[], c level, by simp, by simp, ?_, hx⟩
    rw [hx, hr]
    exact gc.chain level (by omega)
  · have hjc : j ∈ c level := (gc.sub level hlvl).subset (hmem j hjE)
    obtain ⟨us, vs, hsplit⟩ := List.append_of_mem hjc
    refine ⟨us ++ [j], vs, ?_, ?_, ?_, by rw [hx, hr, lastRef_concat]⟩
    · rw [hsplit, List.append_assoc]
      rfl
    · intro e he
      rcases List.mem_append.mp he with heu | hej
      · have hsort := gc.sorted_level level (by omega)
        rw [hsplit, List.pairwise_append] at hsort
        have hlt2 := hsort.2.2 e heu j (by simp)
        exact kianB_antitone sl key e j hlt2 (hE j hjE)
      · have he2 : e = j := by simpa using hej
        subst he2
        exact hE _ hjE
    · have hch := gc.chain level (by omega)
      rw [hsplit] at hch
      have hch2 : IsChain sl level NRef.head ((us ++ [j]) ++ vs) := by
        rw [List.append_assoc]
        exact hch
      have := IsChain.split hch2
      rw [lastRef_concat] at this
      rw [hx, hr]
      exact this

theorem fgeLoop_down {K : Type} [LinearOrder K] {sl : SkipList K} {c : Nat → List Nat}
    (gc : GoodChains sl c) (key : K) {level : Nat} (hlvl : level + 1 < kMaxHeight)
    (IH : ∀ ds E x prev fuel,
      c level = E ++ ds → (∀ e ∈ E, kianB sl key e = true) → IsChain sl level x ds →
      x = lastRef NRef.head E → level * (sl.size + 1) + ds.length + 1 ≤ fuel →
      ∃ pv, fgeLoop sl key fuel x level prev =
          some (((c 0).dropWhile (kianB sl key)).head?, pv) ∧
        (∀ l, l ≤ level → pv l = descendRef sl key (c l)) ∧
        (∀ l, level < l → pv l = prev l))
    {E : List Nat} {x : NRef} (prev : Nat → NRef) {f : Nat}
    (hE : ∀ e ∈ E, kianB sl key e = true) (hx : x = lastRef NRef.head E)
    (hmem : ∀ j ∈ E, j ∈ c (level + 1))
    (htk : (c (level + 1)).takeWhile (kianB sl key) = E)
    (hfuel : level * (sl.size + 1) + sl.size + 1 ≤ f) :
    ∃ pv, fgeLoop sl key f x level (fun j => if j = level + 1 then x else prev j) =
        some (((c 0).dropWhile (kianB sl key)).head?, pv) ∧
      (∀ l, l ≤ level + 1 → pv l = descendRef sl key (c l)) ∧
      (∀ l, level + 1 < l → pv l = prev l) := by
  obtain ⟨E2, ds2, hs2, hE2, hch2, hx2⟩ := descend_setup gc key hlvl hE hx hmem
  have hlen2 : ds2.length ≤ sl.size := by
    have hl2 := gc.len_le level (by omega)
    rw [hs2, List.length_append] at hl2
    omega
  obtain ⟨pv, hrun, hle, hgt⟩ := IH ds2 E2 x (fun j => if j = level + 1 then x else prev j) f
    hs2 hE2 hch2 hx2 (by omega)
  refine ⟨pv, hrun, ?_, ?_⟩
  · intro l hl
    rcases Nat.lt_or_ge l (level + 1) with h | h
    · exact hle l (by omega)
    · have he : l = level + 1 := by omega
      subst he
      rw [hgt _ (by omega)]
      simp only [if_pos rfl]
      rw [descendRef, htk]
      exact hx
  · intro l hl
    rw [hgt l (by omega)]
    have hne : ¬ l = level + 1 := by omega
    simp [hne]

theorem fgeLoop_main {K : Type} [LinearOrder K] {sl : SkipList K} {c : Nat → List Nat}
    (gc : GoodChains sl c) (key : K) :
    ∀ level, level < kMaxHeight →
    ∀ ds E x prev fuel,
      c level = E ++ ds →
      (∀ e ∈ E, kianB sl key e = true) →
      IsChain sl level x ds →
      x = lastRef NRef.head E →
      level * (sl.size + 1) + ds.length + 1 ≤ fuel →
      ∃ pv, fgeLoop sl key fuel x level prev =
          some (((c 0).dropWhile (kianB sl key)).head?, pv) ∧
        (∀ l, l ≤ level → pv l = descendRef sl key (c l)) ∧
        (∀ l, level < l → pv l = prev l) := by
  intro level
  induction level with
  | zero =>
    intro hlvl ds
    induction ds with
    | nil =>
      intro E x prev fuel hsplit hE hch hx hfuel
      obtain ⟨f, rfl⟩ : ∃ f, fuel = f + 1 := ⟨fuel - 1, by omega⟩
      have hnone : nextOf sl x 0 = none := by simpa using hch.head?_eq
      rw [List.append_nil] at hsplit
      have hdrop : (c 0).dropWhile (kianB sl key) = [] := by
        rw [hsplit, List.dropWhile_eq_nil_iff]
        exact hE
      refine ⟨fun j => if j = 0 then x else prev j,
        by rw [fgeLoop_stop0 sl key f x prev hnone rfl, hdrop]; rfl, ?_, ?_⟩
      · intro l hl
        have hl0 : l = 0 := Nat.le_zero.mp hl
        subst hl0
        simp only [if_pos rfl]
        rw [descendRef, hsplit, takeWhile_all_of_all _ hE]
        exact hx
      · intro l hl
        have hne : ¬ l = 0 := by omega
        simp [hne]
    | cons a ds2 ih =>
      intro E x prev fuel hsplit hE hch hx hfuel
      obtain ⟨f, rfl⟩ : ∃ f, fuel = f + 1 := ⟨fuel - 1, by omega⟩
      cases hch with
      | cons hsx hch2 =>
        cases hpa : kianB sl key a with
        | true =>
          rw [fgeLoop_advance sl key f x 0 prev hsx hpa]
          apply ih (E ++ [a]) (NRef.node a) prev f
          · rw [hsplit, List.append_assoc]
            rfl
          · intro e he
            rcases List.mem_append.mp he with heu | hea
            · exact hE e heu
            · have he2 : e = a := by simpa using hea
              subst he2
              exact hpa
          · exact hch2
          · rw [lastRef_concat]
          · simp only [List.length_cons] at hfuel
            omega
        | false =>
          have hpo : KeyIsAfterNode sl key (some a) = false := hpa
          have hdrop : (c 0).dropWhile (kianB sl key) = a :: ds2 := by
            rw [hsplit, dropWhile_append_of_all _ _ hE, List.dropWhile_cons, hpa]
            simp
          refine ⟨fun j => if j = 0 then x else prev j,
            by rw [fgeLoop_stop0 sl key f x prev hsx hpo, hdrop]; rfl, ?_, ?_⟩
          · intro l hl
            have hl0 : l = 0 := Nat.le_zero.mp hl
            subst hl0
            simp only [if_pos rfl]
            rw [descendRef, hsplit, takeWhile_append_of_all _ _ hE, List.takeWhile_cons, hpa]
            simp only [Bool.false_eq_true, if_false, List.append_nil]
            exact hx
          · intro l hl
            have hne : ¬ l = 0 := by omega
            simp [hne]
  | succ level ihlevel =>
    intro hlvl ds
    induction ds with
    | nil =>
      intro E x prev fuel hsplit hE hch hx hfuel
      obtain ⟨f, rfl⟩ : ∃ f, fuel = f + 1 := ⟨fuel - 1, by omega⟩
      have hnone : nextOf sl x (level + 1) = none := by simpa using hch.head?_eq
      rw [List.append_nil] at hsplit
      rw [fgeLoop_descend sl key f x level prev hnone rfl]
      apply fgeLoop_down gc key hlvl (ihlevel (by omega))
      · exact hE
      · exact hx
      · intro j hj
        rw [hsplit]
        exact hj
      · rw [hsplit, takeWhile_all_of_all _ hE]
      · rw [Nat.succ_mul] at hfuel
        omega
    | cons a ds2 ih =>
      intro E x prev fuel hsplit hE hch hx hfuel
      obtain ⟨f, rfl⟩ : ∃ f, fuel = f + 1 := ⟨fuel - 1, by omega⟩
      cases hch with
      | cons hsx hch2 =>
        cases hpa : kianB sl key a with
        | true =>
          rw [fgeLoop_advance sl key f x (level + 1) prev hsx hpa]
          apply ih (E ++ [a]) (NRef.node a) prev f
          · rw [hsplit, List.append_assoc]
            rfl
          · intro e he
            rcases List.mem_append.mp he with heu | hea
            · exact hE e heu
            · have he2 : e = a := by simpa using hea
              subst he2
              exact hpa
          · exact hch2
          · rw [lastRef_concat]
          · simp only [List.length_cons] at hfuel
            omega
        | false =>
          have hpo : KeyIsAfterNode sl key (some a) = false := hpa
          rw [fgeLoop_descend sl key f x level prev hsx hpo]
          apply fgeLoop_down gc key hlvl (ihlevel (by omega))
          · exact hE
          · exact hx
          · intro j hj
            rw [hsplit]
            exact List.mem_append.mpr (Or.inl hj)
          · rw [hsplit, takeWhile_append_of_all _ _ hE, List.takeWhile_cons, hpa]
            simp
          · rw [Nat.succ_mul] at hfuel
            simp only [List.length_cons] at hfuel
            omega

theorem fge_spec {K : Type} [LinearOrder K] {sl : SkipList K} {c : Nat → List Nat}
    (gc : GoodChains sl c) (key : K) :
    ∃ pv, FindGreaterOrEqual sl key =
        some (((c 0).dropWhile (kianB sl key)).head?, pv) ∧
      ∀ l, l < kMaxHeight → pv l = descendRef sl key (c l) := by
  have hk : kMaxHeight = 12 := rfl
  have hmh1 := gc.mhPos
  have hmh2 := gc.mhLe
  rw [hk] at hmh2
  have hlvl : sl.maxHeight - 1 < kMaxHeight := by rw [hk]; omega
  have hlen := gc.len_le (sl.maxHeight - 1) hlvl
  have hb : (sl.maxHeight - 1) * (sl.size + 1) ≤ 11 * (sl.size + 1) :=
    Nat.mul_le_mul_right _ (by omega)
  have hfuel : (sl.maxHeight - 1) * (sl.size + 1) + (c (sl.maxHeight - 1)).length + 1 ≤
      fgeFuel sl := by
    rw [fgeFuel, hk]
    omega
  obtain ⟨pv, hrun, hle, hgt⟩ := fgeLoop_main gc key (sl.maxHeight - 1) hlvl
    (c (sl.maxHeight - 1)) [] NRef.head (fun _ => NRef.head) (fgeFuel sl)
    (by simp) (by simp) (gc.chain _ hlvl) rfl hfuel
  refine ⟨pv, hrun, ?_⟩
  intro l hl
  rcases Nat.lt_or_ge (sl.maxHeight - 1) l with h | h
  · rw [hgt l h]
    have hz : c l = [] := gc.above l (by omega) hl
    rw [descendRef, hz]
    rfl
  · exact hle l h

theorem dropWhile_head_false {α : Type} (p : α → Bool) :
    ∀ (l : List α) {b : α} {bs : List α}, l.dropWhile p = b :: bs → p b = false := by
  intro l
  induction l with
  | nil => intro b bs h; cases h
  | cons a l ih =>
    intro b bs h
    rw [List.dropWhile_cons] at h
    by_cases hpa : p a = true
    · rw [if_pos hpa] at h
      exact ih h
    · rw [if_neg hpa] at h
      injection h with e _
      subst e
      cases hv : p a with
      | false => rfl
      | true => exact absurd hv hpa

theorem fge_none_char {K : Type} [LinearOrder K] (sl : SkipList K) (c : Nat → List Nat)
    (key : K) (h : ((c 0).dropWhile (kianB sl key)).head? = none) :
    ∀ j ∈ c 0, ∀ kj, keyOf sl j = some kj → kj < key := by
  have hd : (c 0).dropWhile (kianB sl key) = [] := by
    cases hdd : (c 0).dropWhile (kianB sl key) with
    | nil => rfl
    | cons b bs => rw [hdd] at h; cases h
  rw [List.dropWhile_eq_nil_iff] at hd
  intro j hj kj hkj
  have hp := hd j hj
  rw [kianB_iff] at hp
  obtain ⟨nk, hnk, hlt⟩ := hp
  rw [hkj] at hnk
  injection hnk with e
  subst e
  exact hlt

theorem fge_some_char {K : Type} [LinearOrder K] {sl : SkipList K} {c : Nat → List Nat}
    (gc : GoodChains sl c) (key : K) {i : Nat}
    (h : ((c 0).dropWhile (kianB sl key)).head? = some i) :
    i ∈ c 0 ∧ ∃ ki, keyOf sl i = some ki ∧ key ≤ ki ∧
      ∀ j ∈ c 0, ∀ kj, keyOf sl j = some kj → key ≤ kj → ki ≤ kj := by
  cases hdd : (c 0).dropWhile (kianB sl key) with
  | nil => rw [hdd] at h; cases h
  | cons b bs =>
    rw [hdd] at h
    injection h with e
    subst e
    have hsplit : (c 0).takeWhile (kianB sl key) ++ b :: bs = c 0 := by
      rw [← hdd]
      exact List.takeWhile_append_dropWhile _ _
    have hmem : b ∈ c 0 := by
      rw [← hsplit]
      simp
    obtain ⟨ki, hki⟩ := gc.keyOf_mem (show (0 : Nat) < kMaxHeight by norm_num [kMaxHeight]) hmem
    refine ⟨hmem, ki, hki, ?_, ?_⟩
    · have hpb : kianB sl key b = false := dropWhile_head_false _ _ hdd
      by_contra hlt
      rw [not_le] at hlt
      have : kianB sl key b = true := by
        rw [kianB_iff]
        exact ⟨ki, hki, hlt⟩
      rw [hpb] at this
      cases this
    · intro j hj kj hkj hge
      rw [← hsplit] at hj
      rcases List.mem_append.mp hj with hjt | hjr
      · exfalso
        have hpj := List.mem_takeWhile_imp hjt
        rw [kianB_iff] at hpj
        obtain ⟨nk, hnk, hlt⟩ := hpj
        rw [hkj] at hnk
        injection hnk with e
        subst e
        exact absurd hge (not_le.mpr hlt)
      · rcases List.mem_cons.mp hjr with e | hjbs
        · subst e
          have := hki.symm.trans hkj
          injection this with e
          exact le_of_eq e
        · have hsl : (b :: bs).Sublist (c 0) := by
            rw [← hsplit]
            exact List.sublist_append_right _ _
          have hpw := gc.sorted.sublist hsl
          rw [List.pairwise_cons] at hpw
          obtain ⟨a2, b2, ha2, hb2, hab⟩ := hpw.1 j hjbs
          have e1 := hki.symm.trans ha2
          injection e1 with e1
          have e2 := hkj.symm.trans hb2
          injection e2 with e2
          subst e1
          subst e2
          exact le_of_lt hab

/-- C2: on a well-formed state, `FindGreaterOrEqual` — which starts at the
head on the height hint's top level, advances while the next node's key is
below the search key, and otherwise records the current node as the
predecessor at that level and descends — returns at level 0 the first node
of the level-0 chain whose key is at or above the search key (`none` when
every key is below it), and its recorded predecessor at each level is the
last node of that level's chain with key below the search key (the head
when there is none). -/
theorem FindGreaterOrEqual_first_ge {K : Type} [LinearOrder K] (sl : SkipList K)
    (c : Nat → List Nat) (gc : GoodChains sl c) (key : K) :
    ∃ res pv, FindGreaterOrEqual sl key = some (res, pv) ∧
      (∀ l, l < kMaxHeight → pv l = descendRef sl key (c l)) ∧
      (res = none → ∀ j ∈ c 0, ∀ kj, keyOf sl j = some kj → kj < key) ∧
      (∀ i, res = some i → i ∈ c 0 ∧ ∃ ki, keyOf sl i = some ki ∧ key ≤ ki ∧
        ∀ j ∈ c 0, ∀ kj, keyOf sl j = some kj → key ≤ kj → ki ≤ kj) := by
  obtain ⟨pv, hrun, hpv⟩ := fge_spec gc key
  refine ⟨_, pv, hrun, hpv, ?_, ?_⟩
  · intro hres
    exact fge_none_char sl c key hres
  · intro i hres
    exact fge_some_char gc key hres

/-- Witness for C2: the claim instantiated at the freshly constructed list
over `Int` (whose chains are all empty) and search key 0. -/
theorem FindGreaterOrEqual_first_ge_witness :
    GoodChains (mkSkipList Int) (fun _ => []) ∧
    (∃ res pv, FindGreaterOrEqual (mkSkipList Int) (0 : Int) = some (res, pv) ∧
      (∀ l, l < kMaxHeight → pv l = descendRef (mkSkipList Int) 0 []) ∧
      (res = none → ∀ j ∈ ([] : List Nat), ∀ kj, keyOf (mkSkipList Int) j = some kj → kj < 0) ∧
      (∀ i, res = some i → i ∈ ([] : List Nat) ∧ ∃ ki,
        keyOf (mkSkipList Int) i = some ki ∧ 0 ≤ ki ∧
        ∀ j ∈ ([] : List Nat), ∀ kj, keyOf (mkSkipList Int) j = some kj → 0 ≤ kj → ki ≤ kj)) :=
  ⟨mk_goodChains Int, FindGreaterOrEqual_first_ge (mkSkipList Int) (fun _ => [])
    (mk_goodChains Int) 0⟩

theorem nextOf_setSlot_ne_ref {K : Type} (st : SkipList K) (a m : Nat) (v : Option Nat)
    {r : NRef} (hr : r ≠ NRef.node a) (l : Nat) :
    nextOf (setNodeNextSlot st a m v) r l = nextOf st r l := by
  cases r with
  | head => rfl
  | node i =>
    have hia : i ≠ a := fun e => hr (by rw [e])
    simp [nextOf, setNodeNextSlot, hia]

theorem nextOf_setSlot_ne_level {K : Type} (st : SkipList K) (a m : Nat) (v : Option Nat)
    (r : NRef) {l : Nat} (hl : l ≠ m) :
    nextOf (setNodeNextSlot st a m v) r l = nextOf st r l := by
  cases r with
  | head => rfl
  | node i =>
    by_cases hia : i = a
    · subst hia
      cases hn : st.nodeAt i <;> simp [nextOf, setNodeNextSlot, hn, hl]
    · simp [nextOf, setNodeNextSlot, hia]

theorem nextOf_setSlot_hit {K : Type} (st : SkipList K) (a m : Nat) (v : Option Nat)
    (hs : (st.nodeAt a).isSome) :
    nextOf (setNodeNextSlot st a m v) (NRef.node a) m = v := by
  cases hn : st.nodeAt a with
  | none => rw [hn] at hs; cases hs
  | some nd => simp [nextOf, setNodeNextSlot, hn]

theorem nextOf_setRef_ne_ref {K : Type} (st : SkipList K) (r0 : NRef) (m : Nat)
    (v : Option Nat) {r : NRef} (hr : r ≠ r0) (l : Nat) :
    nextOf (setRefNext st r0 m v) r l = nextOf st r l := by
  cases r0 with
  | head =>
    cases r with
    | head => exact absurd rfl hr
    | node i => rfl
  | node a => exact nextOf_setSlot_ne_ref st a m v hr l

theorem nextOf_setRef_ne_level {K : Type} (st : SkipList K) (r0 : NRef) (m : Nat)
    (v : Option Nat) (r : NRef) {l : Nat} (hl : l ≠ m) :
    nextOf (setRefNext st r0 m v) r l = nextOf st r l := by
  cases r0 with
  | head =>
    cases r with
    | head => simp [nextOf, setRefNext, hl]
    | node i => rfl
  | node a => exact nextOf_setSlot_ne_level st a m v r hl

theorem nextOf_setRef_hit {K : Type} (st : SkipList K) (r0 : NRef) (m : Nat) (v : Option Nat)
    (hok : r0 = NRef.head ∨ ∃ a, r0 = NRef.node a ∧ (st.nodeAt a).isSome) :
    nextOf (setRefNext st r0 m v) r0 m = v := by
  rcases hok with h | ⟨a, h, hs⟩
  · subst h; simp [nextOf, setRefNext]
  · subst h; exact nextOf_setSlot_hit st a m v hs

theorem setSlot_isSome {K : Type} (st : SkipList K) (a m : Nat) (v : Option Nat) (j : Nat) :
    ((setNodeNextSlot st a m v).nodeAt j).isSome = (st.nodeAt j).isSome := by
  by_cases hj : j = a
  · subst hj
    cases hn : st.nodeAt j <;> simp [setNodeNextSlot, hn]
  · simp [setNodeNextSlot, hj]

theorem setSlot_keyOf {K : Type} (st : SkipList K) (a m : Nat) (v : Option Nat) (j : Nat) :
    keyOf (setNodeNextSlot st a m v) j = keyOf st j := by
  by_cases hj : j = a
  · subst hj
    cases hn : st.nodeAt j <;> simp [keyOf, setNodeNextSlot, hn]
  · simp [keyOf, setNodeNextSlot, hj]

theorem setRef_isSome {K : Type} (st : SkipList K) (r0 : NRef) (m : Nat) (v : Option Nat)
    (j : Nat) : ((setRefNext st r0 m v).nodeAt j).isSome = (st.nodeAt j).isSome := by
  cases r0 with
  | head => rfl
  | node a => exact setSlot_isSome st a m v j

theorem setRef_keyOf {K : Type} (st : SkipList K) (r0 : NRef) (m : Nat) (v : Option Nat)
    (j : Nat) : keyOf (setRefNext st r0 m v) j = keyOf st j := by
  cases r0 with
  | head => rfl
  | node a => exact setSlot_keyOf st a m v j

theorem setSlot_size {K : Type} (st : SkipList K) (a m : Nat) (v : Option Nat) :
    (setNodeNextSlot st a m v).size = st.size := rfl

theorem setRef_size {K : Type} (st : SkipList K) (r0 : NRef) (m : Nat) (v : Option Nat) :
    (setRefNext st r0 m v).size = st.size := by
  cases r0 <;> rfl

theorem setSlot_maxHeight {K : Type} (st : SkipList K) (a m : Nat) (v : Option Nat) :
    (setNodeNextSlot st a m v).maxHeight = st.maxHeight := rfl

theorem setRef_maxHeight {K : Type} (st : SkipList K) (r0 : NRef) (m : Nat) (v : Option Nat) :
    (setRefNext st r0 m v).maxHeight = st.maxHeight := by
  cases r0 <;> rfl

theorem spliceLoop_zero {K : Type} (prev : Nat → NRef) (newId height i : Nat)
    (st : SkipList K) : spliceLoop prev newId height 0 i st = st := rfl

theorem spliceLoop_step {K : Type} (prev : Nat → NRef) (newId height f i : Nat)
    (st : SkipList K) (hi : i < height) :
    spliceLoop prev newId height (f + 1) i st =
      spliceLoop prev newId height f (i + 1)
        (setRefNext (setNodeNextSlot st newId i (nextOf st (prev i) i)) (prev i) i
          (some newId)) := by
  simp only [spliceLoop, hi, if_true]

theorem spliceLoop_stop {K : Type} (prev : Nat → NRef) (newId height f i : Nat)
    (st : SkipList K) (hi : ¬ i < height) :
    spliceLoop prev newId height (f + 1) i st = st := by
  simp only [spliceLoop, hi, if_false]

theorem spliceLoop_keyOf {K : Type} (prev : Nat → NRef) (newId height : Nat) :
    ∀ fuel i (st : SkipList K) (j : Nat),
      keyOf (spliceLoop prev newId height fuel i st) j = keyOf st j := by
  intro fuel
  induction fuel with
  | zero => intro i st j; rfl
  | succ f ih =>
    intro i st j
    by_cases hi : i < height
    · rw [spliceLoop_step prev newId height f i st hi, ih, setRef_keyOf, setSlot_keyOf]
    · rw [spliceLoop_stop prev newId height f i st hi]

theorem spliceLoop_isSome {K : Type} (prev : Nat → NRef) (newId height : Nat) :
    ∀ fuel i (st : SkipList K) (j : Nat),
      ((spliceLoop prev newId height fuel i st).nodeAt j).isSome = (st.nodeAt j).isSome := by
  intro fuel
  induction fuel with
  | zero => intro i st j; rfl
  | succ f ih =>
    intro i st j
    by_cases hi : i < height
    · rw [spliceLoop_step prev newId height f i st hi, ih, setRef_isSome, setSlot_isSome]
    · rw [spliceLoop_stop prev newId height f i st hi]

theorem spliceLoop_size {K : Type} (prev : Nat → NRef) (newId height : Nat) :
    ∀ fuel i (st : SkipList K),
      (spliceLoop prev newId height fuel i st).size = st.size := by
  intro fuel
  induction fuel with
  | zero => intro i st; rfl
  | succ f ih =>
    intro i st
    by_cases hi : i < height
    · rw [spliceLoop_step prev newId height f i st hi, ih, setRef_size, setSlot_size]
    · rw [spliceLoop_stop prev newId height f i st hi]

theorem spliceLoop_maxHeight {K : Type} (prev : Nat → NRef) (newId height : Nat) :
    ∀ fuel i (st : SkipList K),
      (spliceLoop prev newId height fuel i st).maxHeight = st.maxHeight := by
  intro fuel
  induction fuel with
  | zero => intro i st; rfl
  | succ f ih =>
    intro i st
    by_cases hi : i < height
    · rw [spliceLoop_step prev newId height f i st hi, ih, setRef_maxHeight, setSlot_maxHeight]
    · rw [spliceLoop_stop prev newId height f i st hi]

theorem takeWhile_sublist_self {α : Type} (p : α → Bool) :
    ∀ l : List α, (l.takeWhile p).Sublist l := by
  intro l
  induction l with
  | nil => exact List.Sublist.refl _
  | cons a l ih =>
    rw [List.takeWhile_cons]
    by_cases hpa : p a = true
    · rw [if_pos hpa]
      exact ih.cons₂ a
    · rw [if_neg hpa]
      exact List.nil_sublist _

theorem Insert_eq {K : Type} [LinearOrder K] (sl : SkipList K) (key : K) (height : Nat)
    {res : Option Nat} {pv : Nat → NRef} (h : FindGreaterOrEqual sl key = some (res, pv)) :
    Insert sl key height =
      some (spliceLoop (insPrev sl height pv) sl.size height height 0
        (preSplice sl key height)) := by
  rw [Insert, h]
  rfl

theorem preSplice_nextOf {K : Type} (sl : SkipList K) (key : K) (height : Nat)
    (hnone : sl.nodeAt sl.size = none) :
    ∀ (r : NRef) (l : Nat), nextOf (preSplice sl key height) r l = nextOf sl r l := by
  intro r l
  cases r with
  | head => rfl
  | node i =>
    by_cases hi : i = sl.size
    · subst hi
      simp [nextOf, preSplice, hnone]
    · simp [nextOf, preSplice, hi]

theorem preSplice_isSome {K : Type} (sl : SkipList K) (key : K) (height : Nat) (j : Nat) :
    ((preSplice sl key height).nodeAt j).isSome =
      if j = sl.size then true else (sl.nodeAt j).isSome := by
  by_cases hj : j = sl.size <;> simp [preSplice, hj]

theorem preSplice_keyOf {K : Type} (sl : SkipList K) (key : K) (height : Nat) (j : Nat) :
    keyOf (preSplice sl key height) j =
      if j = sl.size then some key else keyOf sl j := by
  by_cases hj : j = sl.size <;> simp [keyOf, preSplice, hj]

theorem spliceLoop_nextOf {K : Type} (prev : Nat → NRef) (newId height : Nat)
    (hprev : ∀ l, l < height → prev l ≠ NRef.node newId) :
    ∀ fuel i (st : SkipList K),
      (st.nodeAt newId).isSome →
      (∀ l, l < height → prev l = NRef.head ∨
        ∃ a, prev l = NRef.node a ∧ (st.nodeAt a).isSome) →
      height ≤ i + fuel →
      ∀ r l, nextOf (spliceLoop prev newId height fuel i st) r l =
        if i ≤ l ∧ l < height ∧ r = NRef.node newId then nextOf st (prev l) l
        else if i ≤ l ∧ l < height ∧ r = prev l then some newId
        else nextOf st r l := by
  intro fuel
  induction fuel with
  | zero =>
    intro i st _ _ hfuel r l
    rw [spliceLoop_zero]
    have hc1 : ¬(i ≤ l ∧ l < height ∧ r = NRef.node newId) := by
      rintro ⟨h1, h2, -⟩; omega
    have hc2 : ¬(i ≤ l ∧ l < height ∧ r = prev l) := by
      rintro ⟨h1, h2, -⟩; omega
    rw [if_neg hc1, if_neg hc2]
  | succ f ih =>
    intro i st hsome hpok hfuel r l
    by_cases hi : i < height
    case neg =>
      rw [spliceLoop_stop prev newId height f i st hi]
      have hc1 : ¬(i ≤ l ∧ l < height ∧ r = NRef.node newId) := by
        rintro ⟨h1, h2, -⟩; omega
      have hc2 : ¬(i ≤ l ∧ l < height ∧ r = prev l) := by
        rintro ⟨h1, h2, -⟩; omega
      rw [if_neg hc1, if_neg hc2]
    case pos =>
      rw [spliceLoop_step prev newId height f i st hi]
      set st1 := setNodeNextSlot st newId i (nextOf st (prev i) i) with hst1
      set st2 := setRefNext st1 (prev i) i (some newId) with hst2
      have hsome2 : (st2.nodeAt newId).isSome := by
        rw [hst2, setRef_isSome, hst1, setSlot_isSome]
        exact hsome
      have hpok2 : ∀ l2, l2 < height → prev l2 = NRef.head ∨
          ∃ a, prev l2 = NRef.node a ∧ (st2.nodeAt a).isSome := by
        intro l2 hl2
        rcases hpok l2 hl2 with hh | ⟨a, ha, hs⟩
        · exact Or.inl hh
        · refine Or.inr ⟨a, ha, ?_⟩
          rw [hst2, setRef_isSome, hst1, setSlot_isSome]
          exact hs
      rw [ih (i + 1) st2 hsome2 hpok2 (by omega) r l]
      have hlvlne : ∀ (r' : NRef) (l2 : Nat), l2 ≠ i → nextOf st2 r' l2 = nextOf st r' l2 := by
        intro r' l2 hne
        rw [hst2, nextOf_setRef_ne_level _ _ _ _ _ hne, hst1,
          nextOf_setSlot_ne_level _ _ _ _ _ hne]
      by_cases hli : l = i
      · subst hli
        have hcf1 : ¬(l + 1 ≤ l ∧ l < height ∧ r = NRef.node newId) := by
          rintro ⟨h1, -, -⟩; omega
        have hcf2 : ¬(l + 1 ≤ l ∧ l < height ∧ r = prev l) := by
          rintro ⟨h1, -, -⟩; omega
        rw [if_neg hcf1, if_neg hcf2]
        by_cases hrn : r = NRef.node newId
        · subst hrn
          rw [if_pos ⟨le_refl l, hi, rfl⟩]
          have e1 : nextOf st2 (NRef.node newId) l = nextOf st1 (NRef.node newId) l := by
            rw [hst2]
            exact nextOf_setRef_ne_ref st1 (prev l) l (some newId)
              (fun e => hprev l hi e.symm) l
          have e2 : nextOf st1 (NRef.node newId) l = nextOf st (prev l) l := by
            rw [hst1]
            exact nextOf_setSlot_hit st newId l (nextOf st (prev l) l) hsome
          rw [e1, e2]
        · have hcg1 : ¬(l ≤ l ∧ l < height ∧ r = NRef.node newId) := fun hc => hrn hc.2.2
          rw [if_neg hcg1]
          by_cases hrp : r = prev l
          · subst hrp
            rw [if_pos ⟨le_refl l, hi, rfl⟩, hst2]
            apply nextOf_setRef_hit
            rcases hpok l hi with hh | ⟨a, ha, hs⟩
            · exact Or.inl hh
            · refine Or.inr ⟨a, ha, ?_⟩
              rw [hst1, setSlot_isSome]
              exact hs
          · have hcg2 : ¬(l ≤ l ∧ l < height ∧ r = prev l) := fun hc => hrp hc.2.2
            rw [if_neg hcg2, hst2, nextOf_setRef_ne_ref _ _ _ _ hrp _, hst1,
              nextOf_setSlot_ne_ref _ _ _ _ hrn _]
      · have et2 : ∀ r', nextOf st2 r' l = nextOf st r' l := fun r' => hlvlne r' l hli
        by_cases h1 : i + 1 ≤ l
        · by_cases h2 : l < height
          · by_cases hrn : r = NRef.node newId
            · rw [if_pos ⟨h1, h2, hrn⟩, if_pos ⟨by omega, h2, hrn⟩, et2]
            · have hA : ¬(i + 1 ≤ l ∧ l < height ∧ r = NRef.node newId) := fun hc => hrn hc.2.2
              have hB : ¬(i ≤ l ∧ l < height ∧ r = NRef.node newId) := fun hc => hrn hc.2.2
              rw [if_neg hA, if_neg hB]
              by_cases hrp : r = prev l
              · rw [if_pos ⟨h1, h2, hrp⟩, if_pos ⟨by omega, h2, hrp⟩]
              · have hC : ¬(i + 1 ≤ l ∧ l < height ∧ r = prev l) := fun hc => hrp hc.2.2
                have hD : ¬(i ≤ l ∧ l < height ∧ r = prev l) := fun hc => hrp hc.2.2
                rw [if_neg hC, if_neg hD, et2]
          · have hA : ¬(i + 1 ≤ l ∧ l < height ∧ r = NRef.node newId) := fun hc => h2 hc.2.1
            have hB : ¬(i ≤ l ∧ l < height ∧ r = NRef.node newId) := fun hc => h2 hc.2.1
            have hC : ¬(i + 1 ≤ l ∧ l < height ∧ r = prev l) := fun hc => h2 hc.2.1
            have hD : ¬(i ≤ l ∧ l < height ∧ r = prev l) := fun hc => h2 hc.2.1
            rw [if_neg hA, if_neg hC, if_neg hB, if_neg hD, et2]
        · have hl2 : ¬ i ≤ l := by omega
          have hA : ¬(i + 1 ≤ l ∧ l < height ∧ r = NRef.node newId) := fun hc => h1 hc.1
          have hB : ¬(i ≤ l ∧ l < height ∧ r = NRef.node newId) := fun hc => hl2 hc.1
          have hC : ¬(i + 1 ≤ l ∧ l < height ∧ r = prev l) := fun hc => h1 hc.1
          have hD : ¬(i ≤ l ∧ l < height ∧ r = prev l) := fun hc => hl2 hc.1
          rw [if_neg hA, if_neg hC, if_neg hB, if_neg hD, et2]

theorem IsChain.congrOn {K : Type} {st st' : SkipList K} {l : Nat} :
    ∀ {r : NRef} {cs : List Nat}, IsChain st l r cs →
      nextOf st' r l = nextOf st r l →
      (∀ i ∈ cs, nextOf st' (NRef.node i) l = nextOf st (NRef.node i) l) →
      IsChain st' l r cs := by
  intro r cs h
  induction h with
  | nil hn => intro hr _; exact IsChain.nil (hr.trans hn)
  | cons hs hc ih =>
    intro hr hcs
    exact IsChain.cons (hr.trans hs) (ih (hcs _ (by simp)) (fun i hi => hcs i (by simp [hi])))

theorem lastRef_append (r : NRef) (xs ys : List Nat) :
    lastRef r (xs ++ ys) = lastRef (lastRef r xs) ys := by
  unfold lastRef
  rw [List.foldl_append]

theorem descendRef_cases {K : Type} [LinearOrder K] (sl : SkipList K) (key : K)
    (cs : List Nat) :
    descendRef sl key cs = NRef.head ∨
    ∃ j ∈ cs, descendRef sl key cs = NRef.node j ∧ kianB sl key j = true := by
  unfold descendRef
  rcases lastRef_cases NRef.head (cs.takeWhile (kianB sl key)) with ⟨he, hr⟩ | ⟨j, hj, hr⟩
  · exact Or.inl hr
  · exact Or.inr ⟨j, (takeWhile_sublist_self (kianB sl key) cs).subset hj, hr,
      List.mem_takeWhile_imp hj⟩

theorem chain_splice_tail {K : Type} {sl S : SkipList K} {l newId : Nat} :
    ∀ {B : List Nat} {Pl : NRef},
      IsChain sl l Pl B →
      nextOf S (NRef.node newId) l = B.head? →
      (∀ x ∈ B, nextOf S (NRef.node x) l = nextOf sl (NRef.node x) l) →
      IsChain S l (NRef.node newId) B := by
  intro B
  cases B with
  | nil =>
    intro Pl _ hh _
    exact IsChain.nil (by rw [hh]; rfl)
  | cons b B2 =>
    intro Pl hold hh hB
    cases hold with
    | cons _ h2 =>
      refine IsChain.cons (by rw [hh]; rfl) ?_
      exact h2.congrOn (hB b (by simp)) (fun i hi => hB i (by simp [hi]))

theorem chain_splice_build {K : Type} {sl S : SkipList K} {l : Nat} {newId : Nat} {Pl : NRef}
    {A B : List Nat}
    (hpub : nextOf S Pl l = some newId)
    (hnewB : IsChain S l (NRef.node newId) B)
    (hun : ∀ r', r' ≠ NRef.node newId → r' ≠ Pl → nextOf S r' l = nextOf sl r' l)
    (hPl : Pl = lastRef NRef.head A)
    (hAnodup : A.Nodup)
    (hAnew : ∀ x ∈ A, x ≠ newId) :
    ∀ us E r, A = E ++ us → r = lastRef NRef.head E →
      IsChain sl l r (us ++ B) → IsChain S l r (us ++ newId :: B) := by
  intro us
  induction us with
  | nil =>
    intro E r hs hr hold
    have hrP : r = Pl := by rw [hr, hPl, hs, List.append_nil]
    subst hrP
    exact IsChain.cons hpub hnewB
  | cons a us2 ih =>
    intro E r hs hr hold
    cases hold with
    | cons hra hch2 =>
      have hrne1 : r ≠ NRef.node newId := by
        rcases lastRef_cases NRef.head E with ⟨hE0, he⟩ | ⟨j, hjE, he⟩
        · rw [hr, he]; intro e; cases e
        · rw [hr, he]
          intro e
          injection e with e
          subst e
          exact hAnew j (by rw [hs]; exact List.mem_append.mpr (Or.inl hjE)) rfl
      have hPl2 : Pl = lastRef (NRef.node a) us2 := by
        rw [hPl, hs, lastRef_append]
        rfl
      have hrne2 : r ≠ Pl := by
        have hnd := hAnodup
        rw [hs, List.nodup_append] at hnd
        rcases lastRef_cases (NRef.node a) us2 with ⟨hu0, hm⟩ | ⟨m, hmu, hm⟩
        · rcases lastRef_cases NRef.head E with ⟨hE0, he⟩ | ⟨j, hjE, he⟩
          · rw [hr, he, hPl2, hm]; intro e; cases e
          · rw [hr, he, hPl2, hm]
            intro e
            injection e with e
            subst e
            exact hnd.2.2 hjE (by simp)
        · rcases lastRef_cases NRef.head E with ⟨hE0, he⟩ | ⟨j, hjE, he⟩
          · rw [hr, he, hPl2, hm]; intro e; cases e
          · rw [hr, he, hPl2, hm]
            intro e
            injection e with e
            subst e
            exact hnd.2.2 hjE (by simp [hmu])
      have hra' : nextOf S r l = some a := by
        rw [hun r hrne1 hrne2]
        exact hra
      refine IsChain.cons hra' ?_
      exact ih (E ++ [a]) (NRef.node a) (by rw [hs, List.append_assoc]; rfl)
        (by rw [lastRef_concat]) hch2

theorem filterMap_congr_mem {α β : Type} {f g : α → Option β} :
    ∀ {l : List α}, (∀ a ∈ l, f a = g a) → l.filterMap f = l.filterMap g := by
  intro l
  induction l with
  | nil => intro _; rfl
  | cons a l ih =>
    intro h
    rw [List.filterMap_cons, List.filterMap_cons, h a (by simp),
      ih (fun x hx => h x (by simp [hx]))]

theorem splice_chain_level {K : Type} [LinearOrder K] {sl S : SkipList K} {key : K} {l : Nat}
    {newId : Nat} {cl : List Nat}
    (hold : IsChain sl l NRef.head cl)
    (hnd : cl.Nodup)
    (hval : ∀ x ∈ cl, x ≠ newId)
    (hEqNew : nextOf S (NRef.node newId) l = nextOf sl (descendRef sl key cl) l)
    (hEqPub : nextOf S (descendRef sl key cl) l = some newId)
    (hun : ∀ r', r' ≠ NRef.node newId → r' ≠ descendRef sl key cl →
      nextOf S r' l = nextOf sl r' l) :
    IsChain S l NRef.head
      (cl.takeWhile (kianB sl key) ++ newId :: cl.dropWhile (kianB sl key)) := by
  set A := cl.takeWhile (kianB sl key) with hA
  set B := cl.dropWhile (kianB sl key) with hB
  have hADB : A ++ B = cl := List.takeWhile_append_dropWhile _ _
  have hPl : descendRef sl key cl = lastRef NRef.head A := rfl
  have hAsub : A.Sublist cl := takeWhile_sublist_self (kianB sl key) cl
  have hAnd : A.Nodup := hnd.sublist hAsub
  have hAnew : ∀ x ∈ A, x ≠ newId := fun x hx => hval x (hAsub.subset hx)
  have holdB : IsChain sl l (descendRef sl key cl) B := by
    rw [hPl]
    apply IsChain.split
    rw [hADB]
    exact hold
  have hheadB : nextOf S (NRef.node newId) l = B.head? := by
    rw [hEqNew, holdB.head?_eq]
  have hdisj : ∀ x ∈ A, x ∉ B := by
    have hnd2 : (A ++ B).Nodup := by rw [hADB]; exact hnd
    rw [List.nodup_append] at hnd2
    exact fun x hx hxB => hnd2.2.2 hx hxB
  have hBun : ∀ x ∈ B, nextOf S (NRef.node x) l = nextOf sl (NRef.node x) l := by
    intro x hx
    apply hun
    · intro e
      injection e with e
      refine hval x ?_ e
      rw [← hADB]
      exact List.mem_append.mpr (Or.inr hx)
    · rcases lastRef_cases NRef.head A with ⟨hA0, hr⟩ | ⟨j, hjA, hr⟩
      · rw [hPl, hr]; intro e; cases e
      · rw [hPl, hr]
        intro e
        injection e with e
        exact hdisj j hjA (e ▸ hx)
  have hnewB : IsChain S l (NRef.node newId) B := chain_splice_tail holdB hheadB hBun
  exact chain_splice_build hEqPub hnewB hun hPl hAnd hAnew A [] NRef.head (by simp) rfl
    (by rw [hADB]; exact hold)

theorem dropWhile_sublist_self {α : Type} (p : α → Bool) :
    ∀ l : List α, (l.dropWhile p).Sublist l := by
  intro l
  induction l with
  | nil => exact List.Sublist.refl _
  | cons a l ih =>
    rw [List.dropWhile_cons]
    by_cases hpa : p a = true
    · rw [if_pos hpa]
      exact ih.cons a
    · rw [if_neg hpa]

theorem Insert_good {K : Type} [LinearOrder K] {sl : SkipList K} {c : Nat → List Nat}
    (gc : GoodChains sl c) (key : K) (hgt : Nat) (hh1 : 1 ≤ hgt) (hh2 : hgt ≤ kMaxHeight)
    (hfresh : key ∉ chainKeys sl (c 0)) :
    ∃ sl', Insert sl key hgt = some sl' ∧
      sl'.size = sl.size + 1 ∧
      keyOf sl' sl.size = some key ∧
      (∀ j, j ≠ sl.size → keyOf sl' j = keyOf sl j) ∧
      GoodChains sl' (spliceChains sl key hgt sl.size c) ∧
      (∀ i, i < hgt →
        nextOf sl' (NRef.node sl.size) i = nextOf sl (descendRef sl key (c i)) i ∧
        nextOf sl' (descendRef sl key (c i)) i = some sl.size) ∧
      (chainKeys sl' (spliceChains sl key hgt sl.size c 0)).Perm
        (key :: chainKeys sl (c 0)) := by
  obtain ⟨pv, hfge, hpv⟩ := fge_spec gc key
  set P := insPrev sl hgt pv with hPdef
  set T := preSplice sl key hgt with hTdef
  set S := spliceLoop P sl.size hgt hgt 0 T with hSdef
  have hsz_none : sl.nodeAt sl.size = none := by
    cases hn : sl.nodeAt sl.size with
    | none => rfl
    | some nd =>
      exfalso
      have hs : (sl.nodeAt sl.size).isSome := by rw [hn]; rfl
      exact absurd ((gc.store _).mp hs) (lt_irrefl _)
  have hTnext : ∀ (r : NRef) (l : Nat), nextOf T r l = nextOf sl r l := by
    rw [hTdef]
    exact preSplice_nextOf sl key hgt hsz_none
  have hTsome : (T.nodeAt sl.size).isSome := by
    rw [hTdef, preSplice_isSome]
    simp
  have hPdesc : ∀ i, i < hgt → P i = descendRef sl key (c i) := by
    intro i hi
    rw [hPdef]
    unfold insPrev
    by_cases hcase : sl.maxHeight ≤ i ∧ i < hgt
    · rw [if_pos hcase]
      have hz : c i = [] := gc.above i hcase.1 (by omega)
      rw [descendRef, hz]
      rfl
    · rw [if_neg hcase]
      have him : i < sl.maxHeight := by
        by_contra hx
        exact hcase ⟨by omega, hi⟩
      have hmle := gc.mhLe
      exact hpv i (by omega)
  have hPmem : ∀ i, i < hgt → P i = NRef.head ∨
      ∃ j ∈ c i, P i = NRef.node j := by
    intro i hi
    rw [hPdesc i hi]
    rcases descendRef_cases sl key (c i) with hh | ⟨j, hj, hr, -⟩
    · exact Or.inl hh
    · exact Or.inr ⟨j, hj, hr⟩
  have hprevne : ∀ l, l < hgt → P l ≠ NRef.node sl.size := by
    intro l hl
    rcases hPmem l hl with hh | ⟨j, hj, hr⟩
    · rw [hh]; intro e; cases e
    · rw [hr]
      intro e
      injection e with e
      have := gc.valid l (by omega) j hj
      omega
  have hpok : ∀ l, l < hgt → P l = NRef.head ∨
      ∃ a, P l = NRef.node a ∧ (T.nodeAt a).isSome := by
    intro l hl
    rcases hPmem l hl with hh | ⟨j, hj, hr⟩
    · exact Or.inl hh
    · refine Or.inr ⟨j, hr, ?_⟩
      rw [hTdef, preSplice_isSome]
      have hjv := gc.valid l (by omega) j hj
      have hne : ¬ j = sl.size := by omega
      rw [if_neg hne]
      exact (gc.store j).mpr hjv
  have hSnext : ∀ (r : NRef) (l : Nat), nextOf S r l =
      if l < hgt ∧ r = NRef.node sl.size then nextOf sl (P l) l
      else if l < hgt ∧ r = P l then some sl.size
      else nextOf sl r l := by
    intro r l
    rw [hSdef, spliceLoop_nextOf P sl.size hgt hprevne hgt 0 T hTsome hpok (by omega) r l]
    by_cases hc1 : l < hgt ∧ r = NRef.node sl.size
    · rw [if_pos ⟨Nat.zero_le l, hc1.1, hc1.2⟩, if_pos hc1, hTnext]
    · have hc1' : ¬(0 ≤ l ∧ l < hgt ∧ r = NRef.node sl.size) := by
        rintro ⟨-, a, b⟩
        exact hc1 ⟨a, b⟩
      rw [if_neg hc1', if_neg hc1]
      by_cases hc2 : l < hgt ∧ r = P l
      · rw [if_pos ⟨Nat.zero_le l, hc2.1, hc2.2⟩, if_pos hc2]
      · have hc2' : ¬(0 ≤ l ∧ l < hgt ∧ r = P l) := by
          rintro ⟨-, a, b⟩
          exact hc2 ⟨a, b⟩
        rw [if_neg hc2', if_neg hc2, hTnext]
  have hSsize : S.size = sl.size + 1 := by
    rw [hSdef, spliceLoop_size, hTdef]
    rfl
  have hSkeyNew : keyOf S sl.size = some key := by
    rw [hSdef, spliceLoop_keyOf, hTdef, preSplice_keyOf]
    simp
  have hSkeyOld : ∀ j, j ≠ sl.size → keyOf S j = keyOf sl j := by
    intro j hj
    rw [hSdef, spliceLoop_keyOf, hTdef, preSplice_keyOf, if_neg hj]
  have hkeyS : ∀ j, keyOf S j = if j = sl.size then some key else keyOf sl j := by
    intro j
    by_cases hj : j = sl.size
    · subst hj; rw [hSkeyNew, if_pos rfl]
    · rw [hSkeyOld j hj, if_neg hj]
  have hSisSome : ∀ j, (S.nodeAt j).isSome ↔ j < sl.size + 1 := by
    intro j
    rw [hSdef, spliceLoop_isSome, hTdef, preSplice_isSome]
    by_cases hj : j = sl.size
    · subst hj; simp
    · rw [if_neg hj, gc.store j]
      constructor <;> omega
  have hSmh : S.maxHeight = if sl.maxHeight < hgt then hgt else sl.maxHeight := by
    rw [hSdef, spliceLoop_maxHeight, hTdef]
    rfl
  have hEqNew : ∀ i, i < hgt → nextOf S (NRef.node sl.size) i = nextOf sl (P i) i := by
    intro i hi
    rw [hSnext, if_pos ⟨hi, rfl⟩]
  have hEqPub : ∀ i, i < hgt → nextOf S (P i) i = some sl.size := by
    intro i hi
    rw [hSnext, if_neg (fun hc => hprevne i hi hc.2), if_pos ⟨hi, rfl⟩]
  have hEqOld : ∀ (r : NRef) (l : Nat), ¬(l < hgt ∧ r = NRef.node sl.size) →
      ¬(l < hgt ∧ r = P l) → nextOf S r l = nextOf sl r l := by
    intro r l hc1 hc2
    rw [hSnext, if_neg hc1, if_neg hc2]
  have hEqHigh : ∀ (r : NRef) (l : Nat), ¬ l < hgt → nextOf S r l = nextOf sl r l := by
    intro r l hl
    exact hEqOld r l (fun hc => hl hc.1) (fun hc => hl hc.1)
  -- the new chains
  have hchains : ∀ l, l < kMaxHeight →
      IsChain S l NRef.head (spliceChains sl key hgt sl.size c l) := by
    intro l hl
    unfold spliceChains
    by_cases hlh : l < hgt
    · rw [if_pos hlh]
      apply splice_chain_level (gc.chain l hl) (gc.nodup_level l hl)
      · intro x hx e
        have := gc.valid l hl x hx
        omega
      · rw [hEqNew l hlh, hPdesc l hlh]
      · rw [← hPdesc l hlh]
        exact hEqPub l hlh
      · intro r' h1 h2
        refine hEqOld r' l (fun hc => h1 hc.2) (fun hc => h2 ?_)
        rw [← hPdesc l hlh]
        exact hc.2
    · rw [if_neg hlh]
      exact IsChain.congrNext (fun r => (hEqHigh r l hlh).symm) (gc.chain l hl)
  -- element bookkeeping for level-0 splice
  have h0h : 0 < hgt := hh1
  have hsplit0 : (c 0).takeWhile (kianB sl key) ++ (c 0).dropWhile (kianB sl key) = c 0 :=
    List.takeWhile_append_dropWhile _ _
  have hA0mem : ∀ x ∈ (c 0).takeWhile (kianB sl key), x ∈ c 0 :=
    fun x hx => (takeWhile_sublist_self _ _).subset hx
  have hB0mem : ∀ x ∈ (c 0).dropWhile (kianB sl key), x ∈ c 0 :=
    fun x hx => (dropWhile_sublist_self _ _).subset hx
  have hk0 : (0 : Nat) < kMaxHeight := by
    have := hh2
    omega
  have hA0ne : ∀ x ∈ (c 0).takeWhile (kianB sl key), x ≠ sl.size := by
    intro x hx e
    have := gc.valid 0 hk0 x (hA0mem x hx)
    omega
  have hB0ne : ∀ x ∈ (c 0).dropWhile (kianB sl key), x ≠ sl.size := by
    intro x hx e
    have := gc.valid 0 hk0 x (hB0mem x hx)
    omega
  have hkltS : ∀ x y, x ≠ sl.size → y ≠ sl.size → keyLt sl x y → keyLt S x y := by
    intro x y hx hy hk
    obtain ⟨a, b, ha, hb, hab⟩ := hk
    exact ⟨a, b, by rw [hkeyS, if_neg hx]; exact ha,
      by rw [hkeyS, if_neg hy]; exact hb, hab⟩
  have hBgt : ∀ j ∈ (c 0).dropWhile (kianB sl key),
      ∃ kj, keyOf sl j = some kj ∧ key < kj := by
    cases hB0 : (c 0).dropWhile (kianB sl key) with
    | nil =>
      intro j hj
      cases hj
    | cons b B2 =>
      have hpb : kianB sl key b = false := dropWhile_head_false _ _ hB0
      have hbmem : b ∈ c 0 := hB0mem b (by rw [hB0]; simp)
      obtain ⟨kb, hkb⟩ := gc.keyOf_mem hk0 hbmem
      have hkbgt : key < kb := by
        have h1 : ¬ kb < key := by
          intro hlt
          have hx : kianB sl key b = true := by
            rw [kianB_iff]
            exact ⟨kb, hkb, hlt⟩
          rw [hpb] at hx
          cases hx
        have h2 : key ≠ kb := by
          intro e
          apply hfresh
          rw [chainKeys, List.mem_filterMap]
          exact ⟨b, hbmem, by rw [hkb, e]⟩
        exact lt_of_le_of_ne (not_lt.mp h1) h2
      intro j hj
      rcases List.mem_cons.mp hj with e | hjB2
      · subst e
        exact ⟨kb, hkb, hkbgt⟩
      · have hsufx : (b :: B2).Sublist (c 0) := by
          rw [← hsplit0, hB0]
          exact List.sublist_append_right _ _
        have hpw := gc.sorted.sublist hsufx
        rw [List.pairwise_cons] at hpw
        obtain ⟨a2, b2, ha2, hb2, hab⟩ := hpw.1 j hjB2
        have e1 := hkb.symm.trans ha2
        injection e1 with e1
        subst e1
        exact ⟨b2, hb2, lt_trans hkbgt hab⟩
  have hsortS : (spliceChains sl key hgt sl.size c 0).Pairwise (keyLt S) := by
    unfold spliceChains
    rw [if_pos h0h]
    have hsort0 := gc.sorted
    rw [← hsplit0, List.pairwise_append] at hsort0
    obtain ⟨hsA, hsB, hsAB⟩ := hsort0
    rw [List.pairwise_append]
    refine ⟨?_, ?_, ?_⟩
    · exact hsA.imp_of_mem (fun {x y} hx hy hk => hkltS x y (hA0ne x hx) (hA0ne y hy) hk)
    · rw [List.pairwise_cons]
      constructor
      · intro j hj
        obtain ⟨kj, hkj, hlt⟩ := hBgt j hj
        exact ⟨key, kj, by rw [hkeyS, if_pos rfl],
          by rw [hkeyS, if_neg (hB0ne j hj)]; exact hkj, hlt⟩
      · exact hsB.imp_of_mem (fun {x y} hx hy hk => hkltS x y (hB0ne x hx) (hB0ne y hy) hk)
    · intro x hx y hy
      rcases List.mem_cons.mp hy with e | hyB
      · subst e
        have hpx := List.mem_takeWhile_imp hx
        rw [kianB_iff] at hpx
        obtain ⟨kx, hkx, hlt⟩ := hpx
        exact ⟨kx, key, by rw [hkeyS, if_neg (hA0ne x hx)]; exact hkx,
          by rw [hkeyS, if_pos rfl], hlt⟩
      · exact hkltS x y (hA0ne x hx) (hB0ne y hyB) (hsAB x hx y hyB)
  have hfilters : ∀ l, l < kMaxHeight →
      (c l).takeWhile (kianB sl key) = (c l).filter (kianB sl key) ∧
      (c l).dropWhile (kianB sl key) = (c l).filter (fun i => !kianB sl key i) :=
    fun l hl => sorted_take_drop_filter (kianB_antitone sl key) (gc.sorted_level l hl)
  have hgood : GoodChains S (spliceChains sl key hgt sl.size c) := by
    refine ⟨?_, ?_, ?_, hchains, ?_, hsortS, ?_, ?_⟩
    · intro i
      rw [hSsize]
      exact hSisSome i
    · rw [hSmh]
      have := gc.mhPos
      split <;> omega
    · rw [hSmh]
      have := gc.mhLe
      split <;> omega
    · intro l hl i hi
      rw [hSsize]
      unfold spliceChains at hi
      by_cases hlh : l < hgt
      · rw [if_pos hlh] at hi
        rcases List.mem_append.mp hi with hiA | hiC
        · have := gc.valid l hl i ((takeWhile_sublist_self _ _).subset hiA)
          omega
        · rcases List.mem_cons.mp hiC with e | hiB
          · omega
          · have := gc.valid l hl i ((dropWhile_sublist_self _ _).subset hiB)
            omega
      · rw [if_neg hlh] at hi
        have := gc.valid l hl i hi
        omega
    · intro l hl12
      unfold spliceChains
      by_cases hc1 : l + 1 < hgt
      · have hlh : l < hgt := by omega
        rw [if_pos hc1, if_pos hlh]
        apply List.Sublist.append
        · rw [(hfilters (l + 1) hl12).1, (hfilters l (by omega)).1]
          exact (gc.sub l hl12).filter _
        · apply List.Sublist.cons₂
          rw [(hfilters (l + 1) hl12).2, (hfilters l (by omega)).2]
          exact (gc.sub l hl12).filter _
      · by_cases hc2 : l < hgt
        · rw [if_neg hc1, if_pos hc2]
          have h1 : (c (l + 1)).Sublist
              ((c l).takeWhile (kianB sl key) ++ (c l).dropWhile (kianB sl key)) := by
            rw [List.takeWhile_append_dropWhile]
            exact gc.sub l hl12
          exact h1.trans ((List.Sublist.refl _).append ((List.Sublist.refl _).cons _))
        · rw [if_neg hc1, if_neg hc2]
          exact gc.sub l hl12
    · intro l hml hl12
      rw [hSmh] at hml
      have hlh : ¬ l < hgt := by
        by_contra hx
        split at hml <;> omega
      have hmh2 : sl.maxHeight ≤ l := by
        split at hml <;> omega
      unfold spliceChains
      rw [if_neg hlh]
      exact gc.above l hmh2 hl12
  have hperm : (chainKeys S (spliceChains sl key hgt sl.size c 0)).Perm
      (key :: chainKeys sl (c 0)) := by
    unfold spliceChains
    rw [if_pos h0h, chainKeys, List.filterMap_append]
    have hfA : ((c 0).takeWhile (kianB sl key)).filterMap (keyOf S) =
        ((c 0).takeWhile (kianB sl key)).filterMap (keyOf sl) :=
      filterMap_congr_mem (fun x hx => by rw [hkeyS, if_neg (hA0ne x hx)])
    have hfB : ((c 0).dropWhile (kianB sl key)).filterMap (keyOf S) =
        ((c 0).dropWhile (kianB sl key)).filterMap (keyOf sl) :=
      filterMap_congr_mem (fun x hx => by rw [hkeyS, if_neg (hB0ne x hx)])
    have hfcons : (sl.size :: (c 0).dropWhile (kianB sl key)).filterMap (keyOf S) =
        key :: ((c 0).dropWhile (kianB sl key)).filterMap (keyOf S) := by
      rw [List.filterMap_cons, hSkeyNew]
    rw [hfA, hfcons, hfB]
    have hck : chainKeys sl (c 0) =
        ((c 0).takeWhile (kianB sl key)).filterMap (keyOf sl) ++
        ((c 0).dropWhile (kianB sl key)).filterMap (keyOf sl) := by
      rw [chainKeys, ← List.filterMap_append, hsplit0]
    rw [hck]
    exact List.perm_middle
  refine ⟨S, ?_, hSsize, hSkeyNew, hSkeyOld, hgood, ?_, hperm⟩
  · rw [Insert_eq sl key hgt hfge, hSdef, hPdef, hTdef]
  · intro i hi
    refine ⟨?_, ?_⟩
    · rw [hEqNew i hi, hPdesc i hi]
    · rw [← hPdesc i hi]
      exact hEqPub i hi

/-- C4: for a key not already present, `Insert` splices the new node —
allocated at the next arena slot — into the chain at every level
`0 ≤ i < height`: the new node's own forward slot at level `i` receives
the predecessor's old successor (the source's relaxed store into the
still-unpublished node), and the predecessor's slot at level `i` is then
set to the new node (the source's release store that publishes it);
`spliceLoop` performs the two stores per level in exactly this order, and
the memory-order markers themselves are mirrored as sequential writes
in this single-writer model. -/
theorem Insert_splices_levels {K : Type} [LinearOrder K] (sl : SkipList K)
    (c : Nat → List Nat) (gc : GoodChains sl c) (key : K) (hgt : Nat)
    (hh1 : 1 ≤ hgt) (hh2 : hgt ≤ kMaxHeight) (hfresh : key ∉ chainKeys sl (c 0)) :
    ∃ sl', Insert sl key hgt = some sl' ∧ keyOf sl' sl.size = some key ∧
      ∀ i, i < hgt →
        nextOf sl' (NRef.node sl.size) i = nextOf sl (descendRef sl key (c i)) i ∧
        nextOf sl' (descendRef sl key (c i)) i = some sl.size := by
  obtain ⟨sl', h1, _, h3, _, _, h6, _⟩ := Insert_good gc key hgt hh1 hh2 hfresh
  exact ⟨sl', h1, h3, h6⟩

/-- Witness for C4: inserting key 5 at height 1 into the fresh list. -/
theorem Insert_splices_levels_witness :
    GoodChains (mkSkipList Int) (fun _ => []) ∧ 1 ≤ 1 ∧ 1 ≤ kMaxHeight ∧
    (5 : Int) ∉ chainKeys (mkSkipList Int) [] ∧
    (∃ sl', Insert (mkSkipList Int) 5 1 = some sl' ∧
      keyOf sl' (mkSkipList Int).size = some 5 ∧
      ∀ i, i < 1 →
        nextOf sl' (NRef.node (mkSkipList Int).size) i =
          nextOf (mkSkipList Int) (descendRef (mkSkipList Int) 5 []) i ∧
        nextOf sl' (descendRef (mkSkipList Int) 5 []) i = some (mkSkipList Int).size) :=
  ⟨mk_goodChains Int, le_refl 1, by decide, by decide,
    Insert_splices_levels (mkSkipList Int) (fun _ => []) (mk_goodChains Int) 5 1
      (le_refl 1) (by decide) (by decide)⟩

theorem insertAll_good {K : Type} [LinearOrder K] :
    ∀ (ps : List (K × Nat)) (sl : SkipList K) (c : Nat → List Nat),
      GoodChains sl c →
      (∀ p ∈ ps, 1 ≤ p.2 ∧ p.2 ≤ kMaxHeight) →
      (∀ p ∈ ps, p.1 ∉ chainKeys sl (c 0)) →
      (ps.map Prod.fst).Nodup →
      ∃ sl' c', insertAll sl ps = some sl' ∧ GoodChains sl' c' ∧
        (chainKeys sl' (c' 0)).Perm (ps.map Prod.fst ++ chainKeys sl (c 0)) := by
  intro ps
  induction ps with
  | nil =>
    intro sl c gc _ _ _
    exact ⟨sl, c, rfl, gc, by simp⟩
  | cons p ps ih =>
    intro sl c gc hh hfr hnd
    obtain ⟨k, hgt⟩ := p
    obtain ⟨sl1, h1, hsz, hknew, hkold, hgood, hspl, hperm⟩ :=
      Insert_good gc k hgt (hh (k, hgt) (by simp)).1 (hh (k, hgt) (by simp)).2
        (hfr (k, hgt) (by simp))
    have hfr2 : ∀ q ∈ ps, q.1 ∉ chainKeys sl1 (spliceChains sl k hgt sl.size c 0) := by
      intro q hq hmem
      have hmem2 := hperm.mem_iff.mp hmem
      rcases List.mem_cons.mp hmem2 with e | hold2
      · rw [List.map_cons, List.nodup_cons] at hnd
        apply hnd.1
        rw [← e]
        exact List.mem_map.mpr ⟨q, hq, rfl⟩
      · exact hfr q (by simp [hq]) hold2
    have hh2 : ∀ q ∈ ps, 1 ≤ q.2 ∧ q.2 ≤ kMaxHeight := fun q hq => hh q (by simp [hq])
    have hnd2 : (ps.map Prod.fst).Nodup := by
      rw [List.map_cons, List.nodup_cons] at hnd
      exact hnd.2
    obtain ⟨sl2, c2, h2run, h2good, h2perm⟩ := ih sl1 _ hgood hh2 hfr2 hnd2
    refine ⟨sl2, c2, ?_, h2good, ?_⟩
    · simp only [insertAll, h1]
      exact h2run
    · exact h2perm.trans ((List.Perm.append_left _ hperm).trans List.perm_middle)

theorem chainKeys_pairwise {K : Type} [LinearOrder K] (sl : SkipList K) :
    ∀ cs : List Nat, cs.Pairwise (keyLt sl) → (chainKeys sl cs).Pairwise (· < ·) := by
  intro cs
  induction cs with
  | nil => intro _; exact List.Pairwise.nil
  | cons a cs ih =>
    intro hp
    rw [List.pairwise_cons] at hp
    rw [chainKeys, List.filterMap_cons]
    cases hka : keyOf sl a with
    | none => exact ih hp.2
    | some ka =>
      refine List.Pairwise.cons ?_ (ih hp.2)
      intro k2 hk2
      rw [List.mem_filterMap] at hk2
      obtain ⟨j, hj, hkj⟩ := hk2
      obtain ⟨x, y, hx, hy, hxy⟩ := hp.1 j hj
      have e1 := hka.symm.trans hx
      injection e1 with e1
      have e2 := hkj.symm.trans hy
      injection e2 with e2
      rw [e1, e2]
      exact hxy

/-- C3: starting from a freshly constructed list and inserting any
sequence of pairwise-distinct keys (each with its random height in
`[1, kMaxHeight]`), every insert succeeds, the level-0 chain from the head
is strictly increasing under the comparator, and the keys on the level-0
chain are a permutation of the inserted keys, so every inserted key has
exactly one node. The statement quantifies over arbitrary insert
sequences, hence applies to every initial segment, giving the invariant after each
`Insert`. -/
theorem insertAll_sorted_unique {K : Type} [LinearOrder K] (ps : List (K × Nat))
    (hh : ∀ p ∈ ps, 1 ≤ p.2 ∧ p.2 ≤ kMaxHeight)
    (hnd : (ps.map Prod.fst).Nodup) :
    ∃ sl' c', insertAll (mkSkipList K) ps = some sl' ∧ GoodChains sl' c' ∧
      (chainKeys sl' (c' 0)).Pairwise (· < ·) ∧
      (chainKeys sl' (c' 0)).Perm (ps.map Prod.fst) ∧
      ∀ k ∈ ps.map Prod.fst, (chainKeys sl' (c' 0)).count k = 1 := by
  obtain ⟨sl', c', hrun, hgood, hperm⟩ := insertAll_good ps (mkSkipList K) (fun _ => [])
    (mk_goodChains K) hh (fun p _ hp => by simp [chainKeys] at hp) hnd
  have hperm2 : (chainKeys sl' (c' 0)).Perm (ps.map Prod.fst) := by
    have hmt : chainKeys (mkSkipList K) [] = [] := rfl
    rw [hmt, List.append_nil] at hperm
    exact hperm
  refine ⟨sl', c', hrun, hgood, ?_, hperm2, ?_⟩
  · exact chainKeys_pairwise sl' (c' 0) hgood.sorted
  · intro k hk
    rw [hperm2.count_eq]
    exact List.count_eq_one_of_mem hnd hk

/-- Witness for C3: inserting the distinct keys 5, 1, 9 with heights 1, 1,
2 into the fresh list over `Int`. -/
theorem insertAll_sorted_unique_witness :
    (∀ p ∈ [((5 : Int), 1), (1, 1), (9, 2)], 1 ≤ p.2 ∧ p.2 ≤ kMaxHeight) ∧
    ([((5 : Int), 1), (1, 1), (9, 2)].map Prod.fst).Nodup ∧
    (∃ sl' c', insertAll (mkSkipList Int) [((5 : Int), 1), (1, 1), (9, 2)] = some sl' ∧
      GoodChains sl' c' ∧
      (chainKeys sl' (c' 0)).Pairwise (· < ·) ∧
      (chainKeys sl' (c' 0)).Perm ([((5 : Int), 1), (1, 1), (9, 2)].map Prod.fst) ∧
      ∀ k ∈ [((5 : Int), 1), (1, 1), (9, 2)].map Prod.fst,
        (chainKeys sl' (c' 0)).count k = 1) :=
  ⟨by decide, by decide,
    insertAll_sorted_unique [((5 : Int), 1), (1, 1), (9, 2)] (by decide) (by decide)⟩

/-- C9: inserting a key already present in the list violates `Insert`'s
precondition: the node returned by the search compares equal to the
inserted key, so `assert(x == nullptr || !Equal(key, x->key))` evaluates
to false (a debug build aborts; a release build continues into undefined
behavior), and `Insert` itself performs no duplicate check and returns a
spliced state rather than any duplicate-key error result. -/
theorem Insert_duplicate_assert_fails {K : Type} [LinearOrder K] (sl : SkipList K)
    (c : Nat → List Nat) (gc : GoodChains sl c) (key : K)
    (hdup : key ∈ chainKeys sl (c 0)) :
    insertAssertOk sl key = some false ∧ ∀ hgt, (Insert sl key hgt).isSome := by
  obtain ⟨pv, hfge, hpv⟩ := fge_spec gc key
  rw [chainKeys, List.mem_filterMap] at hdup
  obtain ⟨j, hj, hkj⟩ := hdup
  have hres : ∃ i, ((c 0).dropWhile (kianB sl key)).head? = some i := by
    cases hr : ((c 0).dropWhile (kianB sl key)).head? with
    | some i => exact ⟨i, rfl⟩
    | none =>
      exfalso
      exact lt_irrefl key (fge_none_char sl c key hr j hj key hkj)
  obtain ⟨i, hres⟩ := hres
  obtain ⟨hmem, ki, hki, hge, hmin⟩ := fge_some_char gc key hres
  have hkey_eq : ki = key := le_antisymm (hmin j hj key hkj (le_refl key)) hge
  rw [hres] at hfge
  constructor
  · have hEq : Equal key key = true := (Equal_iff key key).mpr rfl
    simp only [insertAssertOk, hfge, hki, hkey_eq, hEq]
    rfl
  · intro hgt
    rw [Insert_eq sl key hgt hfge]
    rfl

/-- Witness for C9: the sample list holding key 5, with key 5 inserted
again. -/
theorem Insert_duplicate_assert_fails_witness :
    (∃ c, GoodChains sampleList c ∧ (5 : Int) ∈ chainKeys sampleList (c 0)) ∧
    insertAssertOk sampleList (5 : Int) = some false ∧
    ∀ hgt, (Insert sampleList 5 hgt).isSome := by
  obtain ⟨sl', h1, -, -, -, hgoodc, -, hperm⟩ :=
    Insert_good (mk_goodChains Int) (5 : Int) 1 (le_refl 1) (by decide) (by decide)
  have hsample : sampleList = sl' := by
    unfold sampleList
    rw [h1]
    rfl
  have hmem : (5 : Int) ∈ chainKeys sl'
      (spliceChains (mkSkipList Int) 5 1 (mkSkipList Int).size (fun _ => []) 0) :=
    hperm.mem_iff.mpr (by simp)
  rw [hsample]
  have hmain := Insert_duplicate_assert_fails sl' _ hgoodc 5 hmem
  exact ⟨⟨_, hgoodc, hmem⟩, hmain.1, hmain.2⟩

theorem arena_fallback_safe (a : Arena) (past : List (Nat × Nat)) (b : Nat)
    (hsafe : ArenaSafe a past) :
    ArenaSafe (AllocateFallback a b).2 (past ++ [((AllocateFallback a b).1, b)]) ∧
    ∀ r ∈ past, ¬ Overlap r ((AllocateFallback a b).1, b) := by
  obtain ⟨hfree, hpast⟩ := hsafe
  have hkb : kBlockSize = 4096 := rfl
  simp only [AllocateFallback, AllocateNewBlock]
  by_cases hb : b > kBlockSize / 4
  · rw [if_pos hb]
    refine ⟨⟨?_, ?_⟩, ?_⟩
    · dsimp only
      omega
    · intro r hr
      rcases List.mem_append.mp hr with hro | hrn
      · have hp := hpast r hro
        dsimp only at *
        omega
      · have he : r = (a.nextFresh, b) := by simpa using hrn
        subst he
        dsimp only
        omega
    · intro r hr
      have hp := hpast r hr
      rintro ⟨x, ⟨h1, h2⟩, ⟨h3, h4⟩⟩
      dsimp only at h3 h4
      omega
  · rw [if_neg hb]
    refine ⟨⟨?_, ?_⟩, ?_⟩
    · dsimp only
      omega
    · intro r hr
      rcases List.mem_append.mp hr with hro | hrn
      · have hp := hpast r hro
        dsimp only at *
        omega
      · have he : r = (a.nextFresh, b) := by simpa using hrn
        subst he
        dsimp only
        omega
    · intro r hr
      have hp := hpast r hr
      rintro ⟨x, ⟨h1, h2⟩, ⟨h3, h4⟩⟩
      dsimp only at h3 h4
      omega

theorem arena_alloc_safe (a : Arena) (past : List (Nat × Nat)) (b : Nat)
    (hsafe : ArenaSafe a past) :
    ArenaSafe (Allocate a b).2 (past ++ [((Allocate a b).1, b)]) ∧
    ∀ r ∈ past, ¬ Overlap r ((Allocate a b).1, b) := by
  obtain ⟨hfree, hpast⟩ := hsafe
  rw [Allocate]
  by_cases hle : b ≤ a.allocRemaining
  · rw [if_pos hle]
    refine ⟨⟨?_, ?_⟩, ?_⟩
    · dsimp only
      omega
    · intro r hr
      rcases List.mem_append.mp hr with hro | hrn
      · have hp := hpast r hro
        dsimp only at *
        omega
      · have he : r = (a.allocPtr, b) := by simpa using hrn
        subst he
        dsimp only
        omega
    · intro r hr
      have hp := hpast r hr
      rintro ⟨x, ⟨h1, h2⟩, ⟨h3, h4⟩⟩
      dsimp only at h3 h4
      omega
  · rw [if_neg hle]
    exact arena_fallback_safe a past b ⟨hfree, hpast⟩

theorem arena_aligned_safe (a : Arena) (past : List (Nat × Nat)) (b : Nat)
    (hsafe : ArenaSafe a past) :
    ArenaSafe (AllocateAligned a b).2 (past ++ [((AllocateAligned a b).1, b)]) ∧
    ∀ r ∈ past, ¬ Overlap r ((AllocateAligned a b).1, b) := by
  obtain ⟨hfree, hpast⟩ := hsafe
  rw [AllocateAligned]
  by_cases hfit : b + (if a.allocPtr % kArenaAlign = 0 then 0
      else kArenaAlign - a.allocPtr % kArenaAlign) ≤ a.allocRemaining
  · rw [if_pos hfit]
    refine ⟨⟨?_, ?_⟩, ?_⟩
    · dsimp only
      omega
    · intro r hr
      rcases List.mem_append.mp hr with hro | hrn
      · have hp := hpast r hro
        dsimp only at *
        omega
      · have he : r = (a.allocPtr + (if a.allocPtr % kArenaAlign = 0 then 0
            else kArenaAlign - a.allocPtr % kArenaAlign), b) := by simpa using hrn
        subst he
        dsimp only
        omega
    · intro r hr
      have hp := hpast r hr
      rintro ⟨x, ⟨h1, h2⟩, ⟨h3, h4⟩⟩
      dsimp only at h3 h4
      omega
  · rw [if_neg hfit]
    exact arena_fallback_safe a past b ⟨hfree, hpast⟩

theorem runArena_safe :
    ∀ (qs : List ArenaReq) (a : Arena) (past : List (Nat × Nat)), ArenaSafe a past →
      (∀ r1 ∈ past, ∀ r2 ∈ (runArena a qs).1, ¬ Overlap r1 r2) ∧
      (runArena a qs).1.Pairwise (fun r1 r2 => ¬ Overlap r1 r2) := by
  intro qs
  induction qs with
  | nil =>
    intro a past _
    exact ⟨fun _ _ r2 hr2 => absurd hr2 (List.not_mem_nil r2), List.Pairwise.nil⟩
  | cons q qs ih =>
    intro a past hsafe
    cases q with
    | plain b =>
      obtain ⟨hsafe2, hdisj⟩ := arena_alloc_safe a past b hsafe
      obtain ⟨hold, hpw⟩ := ih (Allocate a b).2 (past ++ [((Allocate a b).1, b)]) hsafe2
      dsimp only [runArena]
      constructor
      · intro r1 hr1 r2 hr2
        rcases List.mem_cons.mp hr2 with e | hr2'
        · subst e
          exact hdisj r1 hr1
        · exact hold r1 (List.mem_append.mpr (Or.inl hr1)) r2 hr2'
      · rw [List.pairwise_cons]
        refine ⟨?_, hpw⟩
        intro r2 hr2
        exact hold ((Allocate a b).1, b) (List.mem_append.mpr (Or.inr (by simp))) r2 hr2
    | aligned b =>
      obtain ⟨hsafe2, hdisj⟩ := arena_aligned_safe a past b hsafe
      obtain ⟨hold, hpw⟩ := ih (AllocateAligned a b).2
        (past ++ [((AllocateAligned a b).1, b)]) hsafe2
      dsimp only [runArena]
      constructor
      · intro r1 hr1 r2 hr2
        rcases List.mem_cons.mp hr2 with e | hr2'
        · subst e
          exact hdisj r1 hr1
        · exact hold r1 (List.mem_append.mpr (Or.inl hr1)) r2 hr2'
      · rw [List.pairwise_cons]
        refine ⟨?_, hpw⟩
        intro r2 hr2
        exact hold ((AllocateAligned a b).1, b) (List.mem_append.mpr (Or.inr (by simp))) r2 hr2

/-- C8: `Allocate(bytes)` serves from the active block when it has at
least `bytes` remaining — returning the current cursor and advancing it by
`bytes` — and otherwise delegates to the fallback path; and, starting from
a fresh arena, the byte ranges returned by any sequence of `Allocate` and
`AllocateAligned` calls are pairwise non-overlapping. -/
theorem Arena_alloc_spec :
    (∀ (a : Arena) (bytes : Nat), bytes ≤ a.allocRemaining →
      Allocate a bytes = (a.allocPtr,
        { a with allocPtr := a.allocPtr + bytes,
                 allocRemaining := a.allocRemaining - bytes })) ∧
    (∀ (a : Arena) (bytes : Nat), ¬ bytes ≤ a.allocRemaining →
      Allocate a bytes = AllocateFallback a bytes) ∧
    ∀ qs : List ArenaReq,
      (runArena arenaInit qs).1.Pairwise (fun r1 r2 => ¬ Overlap r1 r2) := by
  refine ⟨?_, ?_, ?_⟩
  · intro a bytes h
    rw [Allocate, if_pos h]
  · intro a bytes h
    rw [Allocate, if_neg h]
  · intro qs
    refine (runArena_safe qs arenaInit [] ⟨le_refl 0, ?_⟩).2
    intro r hr
    exact absurd hr (List.not_mem_nil r)

/-- Witness for C8: both branches of `Allocate` at a concrete arena with
10 bytes remaining, plus the non-overlap conclusion on a concrete request
sequence. -/
theorem Arena_alloc_spec_witness :
    (4 ≤ (Arena.mk 0 10 0 10).allocRemaining ∧
      Allocate (Arena.mk 0 10 0 10) 4 = ((Arena.mk 0 10 0 10).allocPtr,
        { Arena.mk 0 10 0 10 with
            allocPtr := (Arena.mk 0 10 0 10).allocPtr + 4,
            allocRemaining := (Arena.mk 0 10 0 10).allocRemaining - 4 })) ∧
    (¬ 20 ≤ (Arena.mk 0 10 0 10).allocRemaining ∧
      Allocate (Arena.mk 0 10 0 10) 20 = AllocateFallback (Arena.mk 0 10 0 10) 20) ∧
    (runArena arenaInit [ArenaReq.plain 100, ArenaReq.aligned 20,
      ArenaReq.plain 2000]).1.Pairwise (fun r1 r2 => ¬ Overlap r1 r2) :=
  ⟨⟨by decide, Arena_alloc_spec.1 (Arena.mk 0 10 0 10) 4 (by decide)⟩,
   ⟨by decide, Arena_alloc_spec.2.1 (Arena.mk 0 10 0 10) 20 (by decide)⟩,
   Arena_alloc_spec.2.2 [ArenaReq.plain 100, ArenaReq.aligned 20, ArenaReq.plain 2000]⟩

end leveldb
